import Mathlib

/-!
Verification of the range-tombstone core (range_tombstone.hh).

Shallow embedding conventions:
* A clustering-key prefix is a list of column values; the schema's per-column
  total order is modelled by `Int` with its standard order, and schema
  equality of prefixes by list equality.  The schema's clustering-key column
  count appears only where the source consults it (`is_full`), as an explicit
  `nck : Nat` parameter.
* C++ `bool` functions become Lean `Bool` functions; the fallible
  `range_tombstone::apply` returns its optional remainder in an `Option`.
* The C++ field `prefix` of `bound_view` is rendered `pref`, and the field
  `end` of `range_tombstone` is rendered `endp` (both are Lean keywords);
  every other name follows the source.
Functions that are only declared in range_tombstone.hh (their definitions
live outside the given sources) are modelled from the specification and
marked as such in their doc comments.
-/

/-- The kind of bound in a range tombstone (enum `bound_kind`,
range_tombstone.hh:37-43). -/
inductive bound_kind : Type
  | excl_end : bound_kind
  | incl_start : bound_kind
  | incl_end : bound_kind
  | excl_start : bound_kind
deriving DecidableEq, Repr

/-- Modelled from the spec: `weight` is declared at range_tombstone.hh:48 but
defined outside the given sources.  Spec §3: `excl_end` and `incl_start` are
start-like (weight −1); `incl_end` and `excl_start` are end-like (weight +1). -/
def weight : bound_kind → Int
  | .excl_end => -1
  | .incl_start => -1
  | .incl_end => 1
  | .excl_start => 1

/-- Modelled from the spec: `invert_kind` is declared at range_tombstone.hh:47
but defined outside the given sources.  Spec §3 (complement): the kind that, at
an equal prefix, exactly abuts another with no gap and no overlap —
`excl_end` ↔ `incl_start`, `incl_end` ↔ `excl_start`. -/
def invert_kind : bound_kind → bound_kind
  | .excl_end => .incl_start
  | .incl_start => .excl_end
  | .incl_end => .excl_start
  | .excl_start => .incl_end

/-- `flip_bound_kind` (range_tombstone.hh:50-59): swaps the start/end role
while preserving inclusivity. -/
def flip_bound_kind : bound_kind → bound_kind
  | .excl_end => .excl_start
  | .incl_end => .incl_start
  | .excl_start => .excl_end
  | .incl_start => .incl_end

/-- The external tombstone value type (tombstone.hh is not among the given
sources; spec §1/glossary: deletion timestamp + deletion time, priority
ordering by deletion timestamp). -/
structure tombstone : Type where
  timestamp : Int
  deletion_time : Int
deriving DecidableEq, Repr

/-- Modelled from the spec: the tombstone collaborator's priority join used by
the accumulator ("maximum-priority tombstone", priority = deletion timestamp;
on equal priority the existing value is retained). -/
def tombMax (a b : tombstone) : tombstone :=
  if a.timestamp < b.timestamp then b else a

/-- The external per-column three-way comparison (`tri_compare` over the
schema's column type), modelled on `Int` column values. -/
def tri_compare (x y : Int) : Ordering :=
  if x < y then .lt else if y < x then .gt else .eq

/-- Modelled from the spec: `prefix_equality_tri_compare` (used at
range_tombstone.hh:78-81, defined in a header outside the given sources).
Spec §4.1 step 1: compare the two prefixes component-wise over the components
present in the shorter prefix; the first non-equal component decides. -/
def pfx_equality_tri_compare : List Int → List Int → Ordering
  | [], _ => .eq
  | _ :: _, [] => .eq
  | x :: xs, y :: ys =>
    match tri_compare x y with
    | .eq => pfx_equality_tri_compare xs ys
    | o => o

/-- `bound_view::compare::operator()(p1, w1, p2, w2)`
(range_tombstone.hh:76-91): prefix-equality three-way compare first; if equal,
equal lengths order by weight, and otherwise the shorter prefix sorts first
exactly when its weight is start-like (`w1 <= 0`), respectively the longer
sorts first when the shorter side's weight is end-like (`w2 > 0`). -/
def compareBW (p1 : List Int) (w1 : Int) (p2 : List Int) (w2 : Int) : Bool :=
  match pfx_equality_tri_compare p1 p2 with
  | .lt => true
  | .gt => false
  | .eq =>
    if p1.length = p2.length then decide (w1 < w2)
    else if p1.length < p2.length then decide (w1 ≤ 0)
    else decide (0 < w2)

/-- `bound_view` (range_tombstone.hh:61-117): a clustering-key prefix paired
with a bound kind.  (The C++ field `prefix` is rendered `pref`.) -/
structure bound_view : Type where
  pref : List Int
  kind : bound_kind
deriving DecidableEq, Repr

/-- `bound_view::compare::operator()(b1, b2)` (range_tombstone.hh:98-100). -/
def bv_lt (b1 b2 : bound_view) : Bool :=
  compareBW b1.pref (weight b1.kind) b2.pref (weight b2.kind)

/-- `bound_view::compare::operator()(b, p)` (range_tombstone.hh:92-94): a bare
prefix is compared at weight 0. -/
def bv_lt_row (b : bound_view) (p : List Int) : Bool :=
  compareBW b.pref (weight b.kind) p 0

/-- `bound_view::compare::operator()(p, b)` (range_tombstone.hh:95-97). -/
def row_lt_bv (p : List Int) (b : bound_view) : Bool :=
  compareBW p 0 b.pref (weight b.kind)

/-- `bound_view::equal` (range_tombstone.hh:102-104): same kind and
schema-equal prefix. -/
def bound_view.equal (b1 b2 : bound_view) : Bool :=
  decide (b1.kind = b2.kind) && decide (b1.pref = b2.pref)

/-- `bound_view::adjacent` (range_tombstone.hh:105-107):
`invert_kind(other.kind) == kind && prefix.equal(s, other.prefix)`. -/
def bound_view.adjacent (b1 b2 : bound_view) : Bool :=
  decide (invert_kind b2.kind = b1.kind) && decide (b1.pref = b2.pref)

/-- `bound_view::bottom()` (range_tombstone.hh:108-110). -/
def bound_view.bottom : bound_view := ⟨[], .incl_start⟩

/-- `bound_view::top()` (range_tombstone.hh:111-113). -/
def bound_view.top : bound_view := ⟨[], .incl_end⟩

/-- `clustering_key_prefix::is_full(s)` of the external keys collaborator: the
prefix has a value for every clustering column of the schema (`nck` clustering
columns). -/
def is_full (nck : Nat) (p : List Int) : Bool :=
  decide (p.length = nck)

/-- `range_tombstone` (range_tombstone.hh:122-256).  (The C++ field `end` is
rendered `endp`.) -/
structure range_tombstone : Type where
  start : List Int
  start_kind : bound_kind
  endp : List Int
  end_kind : bound_kind
  tomb : tombstone
deriving DecidableEq, Repr

/-- `range_tombstone::start_bound` (range_tombstone.hh:171-173). -/
def range_tombstone.start_bound (rt : range_tombstone) : bound_view :=
  ⟨rt.start, rt.start_kind⟩

/-- `range_tombstone::end_bound` (range_tombstone.hh:174-176). -/
def range_tombstone.end_bound (rt : range_tombstone) : bound_view :=
  ⟨rt.endp, rt.end_kind⟩

/-- `range_tombstone::equal` (range_tombstone.hh:183-185). -/
def range_tombstone.equal (rt1 rt2 : range_tombstone) : Bool :=
  decide (rt1.tomb = rt2.tomb) && rt1.start_bound.equal rt2.start_bound
    && rt1.end_bound.equal rt2.end_bound

/-- `range_tombstone::flip` (range_tombstone.hh:235-240): swap the two
prefixes and the two kinds, then replace each kind by its direction-flip. -/
def range_tombstone.flip (rt : range_tombstone) : range_tombstone :=
  { start := rt.endp
    start_kind := flip_bound_kind rt.end_kind
    endp := rt.start
    end_kind := flip_bound_kind rt.start_kind
    tomb := rt.tomb }

/-- `range_tombstone::is_single_clustering_row_tombstone`
(range_tombstone.hh:216-221). -/
def is_single_clustering_row_tombstone (nck : Nat) (start : List Int)
    (start_kind : bound_kind) (endp : List Int) (end_kind : bound_kind) : Bool :=
  is_full nck start && decide (start_kind = bound_kind.incl_start)
    && decide (end_kind = bound_kind.incl_end) && decide (start = endp)

/-- Tokens contributed to a hasher; the external `Hasher` collaborator is
modelled as the list of tokens fed to it, in order. -/
inductive htoken : Type
  | hval : Int → htoken
  | hlen : Nat → htoken
  | hkind : bound_kind → htoken
  | htomb : tombstone → htoken
deriving DecidableEq, Repr

/-- The external `clustering_key_prefix::feed_hash` contribution
(length-prefixed component values). -/
def hashKey (p : List Int) : List htoken :=
  htoken.hlen p.length :: p.map htoken.hval

/-- `range_tombstone::feed_hash` (range_tombstone.hh:193-204): hash the start
prefix; if `!start.equal(s, end) || start_kind != incl_start ||
end_kind != incl_end`, hash the start kind, end prefix and end kind; always
hash the tombstone last. -/
def range_tombstone.feed_hash (rt : range_tombstone) : List htoken :=
  hashKey rt.start ++
    (if ¬ rt.start = rt.endp ∨ ¬ rt.start_kind = bound_kind.incl_start
        ∨ ¬ rt.end_kind = bound_kind.incl_end then
      htoken.hkind rt.start_kind :: (hashKey rt.endp ++ [htoken.hkind rt.end_kind])
    else []) ++ [htoken.htomb rt.tomb]

/-- The smaller of two bounds under `bv_lt`, keeping the first unless the
second is strictly smaller. -/
def minBound (a b : bound_view) : bound_view :=
  if bv_lt b a then b else a

/-- Modelled from the spec: `range_tombstone::apply` is declared at
range_tombstone.hh:229 but defined outside the given sources.  Spec §4.2:
the winner tombstone is the one of the two with strictly higher deletion
timestamp (ties retain `this.tomb`); `this` keeps its start, takes the winner
tombstone and is truncated to `shared_end = min(this.end_bound(),
src.end_bound())`; if the loser's original end bound lies strictly beyond
`shared_end`, a remainder is returned that starts at `shared_end` with the
complementary start kind, ends at the loser's original end bound and carries
the loser's tombstone; otherwise no remainder is returned. -/
def range_tombstone.apply (a src : range_tombstone) :
    range_tombstone × Option range_tombstone :=
  let winnerIsSrc := a.tomb.timestamp < src.tomb.timestamp
  let winnerTomb := if winnerIsSrc then src.tomb else a.tomb
  let loserTomb := if winnerIsSrc then a.tomb else src.tomb
  let loserEnd := if winnerIsSrc then a.end_bound else src.end_bound
  let sharedEnd := minBound a.end_bound src.end_bound
  let a' : range_tombstone :=
    { a with endp := sharedEnd.pref, end_kind := sharedEnd.kind, tomb := winnerTomb }
  let rem : Option range_tombstone :=
    if bv_lt sharedEnd loserEnd then
      some { start := sharedEnd.pref, start_kind := invert_kind sharedEnd.kind
             endp := loserEnd.pref, end_kind := loserEnd.kind, tomb := loserTomb }
    else none
  (a', rem)

/-- A row `ck` (bare prefix, weight 0) is covered by `rt`: the start bound is
not after the row and the end bound is not before it. -/
def covers (rt : range_tombstone) (ck : List Int) : Bool :=
  !(row_lt_bv ck rt.start_bound) && !(bv_lt_row rt.end_bound ck)

/-- A range tombstone is well formed when its start bound is not after its end
bound (spec §3 invariant `start_bound() ≤ end_bound()`). -/
def wfRT (rt : range_tombstone) : Bool :=
  !(bv_lt rt.end_bound rt.start_bound)

/-- Splitting a range tombstone at another's start bound: the front part,
reaching from the first tombstone's start up to the bound complementary to the
second's start. -/
def splitFront (h rt : range_tombstone) : range_tombstone :=
  { h with endp := rt.start, end_kind := invert_kind rt.start_kind }

/-- Splitting a range tombstone at another's start bound: the back part,
reaching from the second tombstone's start to the first's end. -/
def splitBack (h rt : range_tombstone) : range_tombstone :=
  { h with start := rt.start, start_kind := rt.start_kind }

/-- Modelled from the spec: the overlap-resolving insertion performed by
`range_tombstone_accumulator::apply`, declared at range_tombstone.hh:297 but
defined outside the given sources.  Spec §4.3: insert the new range tombstone
into the buffered sequence, resolving overlap against buffered entries whose
ranges intersect it via the §4.2 merge primitive, splitting the new tombstone
or the buffered entry at mismatched starts first so that only same-start pairs
are ever merged, and cascading the produced disjoint fragments. -/
def insertRT : List range_tombstone → range_tombstone → List range_tombstone
  | [], rt => [rt]
  | h :: t, rt =>
    if bv_lt h.end_bound rt.start_bound then
      h :: insertRT t rt
    else if bv_lt rt.end_bound h.start_bound then
      rt :: h :: t
    else if bv_lt h.start_bound rt.start_bound then
      splitFront h rt :: ((splitBack h rt).apply rt).1 ::
        (match ((splitBack h rt).apply rt).2 with
          | some r => insertRT t r
          | none => t)
    else if bv_lt rt.start_bound h.start_bound then
      splitFront rt h :: (h.apply (splitBack rt h)).1 ::
        (match (h.apply (splitBack rt h)).2 with
          | some r => insertRT t r
          | none => t)
    else
      (h.apply rt).1 ::
        (match (h.apply rt).2 with
          | some r => insertRT t r
          | none => t)

/-- `range_tombstone_accumulator` (range_tombstone.hh:270-300); the deque of
buffered range tombstones becomes a list. -/
structure range_tombstone_accumulator : Type where
  _partition_tombstone : tombstone
  _range_tombstones : List range_tombstone
  _current_tombstone : tombstone
  _reversed : Bool
deriving DecidableEq, Repr

namespace range_tombstone_accumulator

/-- Modelled from the spec: `update_current_tombstone` is declared at
range_tombstone.hh:277 but defined outside the given sources.  Spec §4.3
(`set_partition_tombstone`): the current tombstone is recomputed as the
maximum-priority tombstone among the partition tombstone and the buffered
range tombstones. -/
def update_current_tombstone (acc : range_tombstone_accumulator) :
    range_tombstone_accumulator :=
  let cur := List.foldl (fun c rt => tombMax c rt.tomb)
    acc._partition_tombstone acc._range_tombstones
  { acc with _current_tombstone := cur }

/-- `set_partition_tombstone` (range_tombstone.hh:283-286). -/
def set_partition_tombstone (acc : range_tombstone_accumulator)
    (t : tombstone) : range_tombstone_accumulator :=
  update_current_tombstone { acc with _partition_tombstone := t }

/-- `get_partition_tombstone` (range_tombstone.hh:288-290). -/
def get_partition_tombstone (acc : range_tombstone_accumulator) : tombstone :=
  acc._partition_tombstone

/-- Modelled from the spec: `drop_unneeded_tombstones` is declared at
range_tombstone.hh:278 but defined outside the given sources.  Spec §4.3
(`tombstone_for_row`): prune every buffered entry whose end bound is strictly
before `ck`, then recompute the current tombstone as the maximum-priority
tombstone among the partition tombstone and the tombstone of the (at most one)
buffered entry whose range still covers `ck`. -/
def drop_unneeded_tombstones (acc : range_tombstone_accumulator)
    (ck : List Int) : range_tombstone_accumulator :=
  let buf := acc._range_tombstones.filter (fun rt => !(bv_lt_row rt.end_bound ck))
  let cur := match buf.find? (fun rt => covers rt ck) with
    | some rt => tombMax acc._partition_tombstone rt.tomb
    | none => acc._partition_tombstone
  { acc with _range_tombstones := buf, _current_tombstone := cur }

/-- `tombstone_for_row` (range_tombstone.hh:292-295): drop the unneeded
tombstones, then return the current tombstone. -/
def tombstone_for_row (acc : range_tombstone_accumulator) (ck : List Int) :
    range_tombstone_accumulator × tombstone :=
  let acc' := drop_unneeded_tombstones acc ck
  (acc', acc'._current_tombstone)

/-- Modelled from the spec: `range_tombstone_accumulator::apply` is declared
at range_tombstone.hh:297 but defined outside the given sources.  Spec §4.3:
insert into the buffered sequence resolving overlaps (see `insertRT`); the
externally reported current tombstone is not altered by `apply` itself. -/
def apply (acc : range_tombstone_accumulator) (rt : range_tombstone) :
    range_tombstone_accumulator :=
  { acc with _range_tombstones := insertRT acc._range_tombstones rt }

/-- Modelled from the spec: `clear` is declared at range_tombstone.hh:299 but
defined outside the given sources.  Spec §4.3: reset the buffered sequence to
empty and the current tombstone to a fresh default. -/
def clear (acc : range_tombstone_accumulator) : range_tombstone_accumulator :=
  { acc with _range_tombstones := [], _current_tombstone := ⟨0, 0⟩ }

/-- The accumulator as constructed at range_tombstone.hh:280-281: empty
buffer, default tombstones. -/
def fresh (reversed : Bool) : range_tombstone_accumulator :=
  ⟨⟨0, 0⟩, [], ⟨0, 0⟩, reversed⟩

end range_tombstone_accumulator

/-- An input to the accumulator: a range tombstone to apply, or a row query. -/
inductive acc_event : Type
  | ev_apply : range_tombstone → acc_event
  | ev_query : List Int → acc_event
deriving DecidableEq, Repr

/-- The clustering position (prefix, weight) of an accumulator input, per the
contract at range_tombstone.hh:261-269: an applied tombstone is at its start
bound, a queried row at weight 0. -/
def evPos : acc_event → List Int × Int
  | .ev_apply rt => (rt.start, weight rt.start_kind)
  | .ev_query ck => (ck, 0)

/-- One accumulator step. -/
def stepAcc (acc : range_tombstone_accumulator) :
    acc_event → range_tombstone_accumulator
  | .ev_apply rt => acc.apply rt
  | .ev_query ck => (acc.tombstone_for_row ck).1

/-- Run the accumulator over a sequence of inputs. -/
def runAcc (acc : range_tombstone_accumulator) :
    List acc_event → range_tombstone_accumulator
  | [] => acc
  | e :: es => runAcc (stepAcc acc e) es

/-- The range tombstones applied during a sequence of inputs. -/
def appliedOf (evs : List acc_event) : List range_tombstone :=
  evs.filterMap (fun e => match e with
    | .ev_apply rt => some rt
    | .ev_query _ => none)

/-- Positions strictly increase along the input sequence
(range_tombstone.hh:261-269). -/
def monotoneEvents (evs : List acc_event) : Prop :=
  evs.Chain' (fun e1 e2 =>
    compareBW (evPos e1).1 (evPos e1).2 (evPos e2).1 (evPos e2).2 = true)

/-- Every applied range tombstone in the input sequence is well formed. -/
def wfEvents (evs : List acc_event) : Prop :=
  ∀ rt ∈ appliedOf evs, wfRT rt = true

/-! ### The bound comparator as a strict weak order -/

/-- A recursive reformulation of `compareBW`, convenient for induction. -/
def cmpRec : List Int → Int → List Int → Int → Bool
  | [], w1, [], w2 => decide (w1 < w2)
  | [], w1, _ :: _, _ => decide (w1 ≤ 0)
  | _ :: _, _, [], w2 => decide (0 < w2)
  | x :: xs, w1, y :: ys, w2 =>
    if x < y then true
    else if y < x then false
    else cmpRec xs w1 ys w2

theorem cmp_eq_rec (p1 : List Int) (w1 : Int) (p2 : List Int) (w2 : Int) :
    compareBW p1 w1 p2 w2 = cmpRec p1 w1 p2 w2 := by
  induction p1 generalizing p2 with
  | nil =>
    cases p2 with
    | nil => simp [compareBW, cmpRec, pfx_equality_tri_compare]
    | cons y ys => simp [compareBW, cmpRec, pfx_equality_tri_compare]
  | cons x xs ih =>
    cases p2 with
    | nil => simp [compareBW, cmpRec, pfx_equality_tri_compare]
    | cons y ys =>
      by_cases hxy : x < y
      · simp [compareBW, cmpRec, pfx_equality_tri_compare, tri_compare, hxy]
      · by_cases hyx : y < x
        · simp [compareBW, cmpRec, pfx_equality_tri_compare, tri_compare, hxy, hyx]
        · have hrec : cmpRec (x :: xs) w1 (y :: ys) w2 = cmpRec xs w1 ys w2 := by
            simp [cmpRec, hxy, hyx]
          have htri : pfx_equality_tri_compare (x :: xs) (y :: ys)
              = pfx_equality_tri_compare xs ys := by
            simp [pfx_equality_tri_compare, tri_compare, hxy, hyx]
          rw [hrec, ← ih ys]
          unfold compareBW
          rw [htri]
          cases h : pfx_equality_tri_compare xs ys <;> simp [List.length_cons]


theorem cmpRec_irrefl (p : List Int) (w : Int) : cmpRec p w p w = false := by
  induction p with
  | nil => simp [cmpRec]
  | cons x xs ih => simp [cmpRec, ih]

theorem cmpRec_trans {p1 p2 p3 : List Int} {w1 w2 w3 : Int}
    (h12 : cmpRec p1 w1 p2 w2 = true) (h23 : cmpRec p2 w2 p3 w3 = true) :
    cmpRec p1 w1 p3 w3 = true := by
  induction p1 generalizing p2 p3 with
  | nil =>
    cases p2 with
    | nil =>
      cases p3 with
      | nil => simp_all [cmpRec]; omega
      | cons z zs => simp_all [cmpRec]; omega
    | cons y ys =>
      cases p3 with
      | nil =>
        simp only [cmpRec, decide_eq_true_eq] at h12 h23 ⊢
        by_cases hy0 : ∃ u v, (y :: ys) = u :: v
        · omega
        · simp at hy0
      | cons z zs => simp_all [cmpRec]
  | cons x xs ih =>
    cases p2 with
    | nil =>
      cases p3 with
      | nil => simp_all [cmpRec]; omega
      | cons z zs => simp_all [cmpRec]; omega
    | cons y ys =>
      cases p3 with
      | nil =>
        simp only [cmpRec, decide_eq_true_eq] at h23 ⊢
        exact h23
      | cons z zs =>
        simp only [cmpRec] at h12 h23 ⊢
        by_cases hxy : x < y <;> by_cases hyx : y < x <;>
          by_cases hyz : y < z <;> by_cases hzy : z < y <;>
          by_cases hxz : x < z <;> by_cases hzx : z < x <;>
          simp_all <;> try omega
        exact Or.inr (ih h12 h23)

theorem cmpRec_eq_of_incomp {p1 p2 : List Int} {w1 w2 : Int}
    (h12 : cmpRec p1 w1 p2 w2 = false) (h21 : cmpRec p2 w2 p1 w1 = false) :
    p1 = p2 ∧ w1 = w2 := by
  induction p1 generalizing p2 with
  | nil =>
    cases p2 with
    | nil =>
      simp only [cmpRec, decide_eq_false_iff_not, not_lt] at h12 h21
      exact ⟨rfl, le_antisymm h21 h12⟩
    | cons y ys =>
      simp only [cmpRec, decide_eq_false_iff_not, not_le, not_lt] at h12 h21
      omega
  | cons x xs ih =>
    cases p2 with
    | nil =>
      simp only [cmpRec, decide_eq_false_iff_not, not_le, not_lt] at h12 h21
      omega
    | cons y ys =>
      simp only [cmpRec] at h12 h21
      by_cases hxy : x < y
      · simp [hxy] at h12
      · by_cases hyx : y < x
        · simp [hxy, hyx] at h21
        · simp only [hxy, hyx, if_false] at h12 h21
          have hx : x = y := le_antisymm (not_lt.mp hyx) (not_lt.mp hxy)
          obtain ⟨he, hw⟩ := ih h12 h21
          exact ⟨by rw [hx, he], hw⟩

theorem cmp_irrefl (p : List Int) (w : Int) : compareBW p w p w = false := by
  rw [cmp_eq_rec]; exact cmpRec_irrefl p w

theorem cmp_trans {p1 p2 p3 : List Int} {w1 w2 w3 : Int}
    (h12 : compareBW p1 w1 p2 w2 = true) (h23 : compareBW p2 w2 p3 w3 = true) :
    compareBW p1 w1 p3 w3 = true := by
  rw [cmp_eq_rec] at h12 h23 ⊢
  exact cmpRec_trans h12 h23

theorem cmp_eq_of_incomp {p1 p2 : List Int} {w1 w2 : Int}
    (h12 : compareBW p1 w1 p2 w2 = false) (h21 : compareBW p2 w2 p1 w1 = false) :
    p1 = p2 ∧ w1 = w2 := by
  rw [cmp_eq_rec] at h12 h21
  exact cmpRec_eq_of_incomp h12 h21

theorem cmp_asymm {p1 p2 : List Int} {w1 w2 : Int}
    (h : compareBW p1 w1 p2 w2 = true) : compareBW p2 w2 p1 w1 = false := by
  by_contra hc
  have h21 : compareBW p2 w2 p1 w1 = true := by
    cases hb : compareBW p2 w2 p1 w1
    · exact absurd hb hc
    · rfl
  have := cmp_trans h h21
  rw [cmp_irrefl] at this
  simp at this

/-- `p1 ≤ p2 ≤ p3` implies `p1 ≤ p3` (`≤` being the negation of the reversed
comparison). -/
theorem cmp_le_trans {p1 p2 p3 : List Int} {w1 w2 w3 : Int}
    (h12 : compareBW p2 w2 p1 w1 = false) (h23 : compareBW p3 w3 p2 w2 = false) :
    compareBW p3 w3 p1 w1 = false := by
  by_contra hc
  have h31 : compareBW p3 w3 p1 w1 = true := by
    cases hb : compareBW p3 w3 p1 w1
    · exact absurd hb hc
    · rfl
  cases hb : compareBW p2 w2 p3 w3 with
  | false =>
    obtain ⟨he, hw⟩ := cmp_eq_of_incomp h23 hb
    rw [← he, ← hw] at h12
    rw [h31] at h12
    simp at h12
  | true =>
    have := cmp_trans hb h31
    rw [this] at h12
    simp at h12

/-- `p1 ≤ p2 < p3` implies `p1 < p3`. -/
theorem cmp_lt_of_le_of_lt {p1 p2 p3 : List Int} {w1 w2 w3 : Int}
    (h12 : compareBW p2 w2 p1 w1 = false) (h23 : compareBW p2 w2 p3 w3 = true) :
    compareBW p1 w1 p3 w3 = true := by
  cases hb : compareBW p1 w1 p2 w2 with
  | false =>
    obtain ⟨he, hw⟩ := cmp_eq_of_incomp hb h12
    rw [he, hw]
    exact h23
  | true => exact cmp_trans hb h23

/-- `p1 < p2 ≤ p3` implies `p1 < p3`. -/
theorem cmp_lt_of_lt_of_le {p1 p2 p3 : List Int} {w1 w2 w3 : Int}
    (h12 : compareBW p1 w1 p2 w2 = true) (h23 : compareBW p3 w3 p2 w2 = false) :
    compareBW p1 w1 p3 w3 = true := by
  cases hb : compareBW p2 w2 p3 w3 with
  | false =>
    obtain ⟨he, hw⟩ := cmp_eq_of_incomp hb h23
    rw [← he, ← hw]
    exact h12
  | true => exact cmp_trans h12 hb

theorem weight_ne_zero (k : bound_kind) : weight k ≠ 0 := by
  cases k <;> simp [weight]

theorem weight_invert (k : bound_kind) : weight (invert_kind k) = weight k := by
  cases k <;> rfl

theorem invert_invert (k : bound_kind) : invert_kind (invert_kind k) = k := by
  cases k <;> rfl

/-- A row (weight 0) is never order-equivalent to a range-tombstone bound
(weight ±1): one of the two strict comparisons always holds. -/
theorem row_bound_total (p : List Int) (b : bound_view) :
    compareBW p 0 b.pref (weight b.kind) = true
      ∨ compareBW b.pref (weight b.kind) p 0 = true := by
  by_contra hc
  push_neg at hc
  obtain ⟨h1, h2⟩ := hc
  have h1f : compareBW p 0 b.pref (weight b.kind) = false := by
    cases hb : compareBW p 0 b.pref (weight b.kind)
    · rfl
    · exact absurd hb h1
  have h2f : compareBW b.pref (weight b.kind) p 0 = false := by
    cases hb : compareBW b.pref (weight b.kind) p 0
    · rfl
    · exact absurd hb h2
  obtain ⟨-, hw⟩ := cmp_eq_of_incomp h1f h2f
  exact weight_ne_zero b.kind hw.symm

theorem tri_compare_self (x : Int) : tri_compare x x = .eq := by
  simp [tri_compare]

theorem pfx_tri_self (p : List Int) : pfx_equality_tri_compare p p = .eq := by
  induction p with
  | nil => rfl
  | cons x xs ih => simp [pfx_equality_tri_compare, tri_compare_self, ih]

theorem pfx_tri_append (p q : List Int) :
    pfx_equality_tri_compare p (p ++ q) = .eq := by
  induction p with
  | nil => rfl
  | cons x xs ih => simp [pfx_equality_tri_compare, tri_compare_self, ih]

theorem pfx_tri_append' (p q : List Int) :
    pfx_equality_tri_compare (p ++ q) p = .eq := by
  induction p with
  | nil => cases q <;> rfl
  | cons x xs ih => simp [pfx_equality_tri_compare, tri_compare_self, ih]

theorem pfx_tri_symm_eq {p1 p2 : List Int}
    (h : pfx_equality_tri_compare p1 p2 = .eq) :
    pfx_equality_tri_compare p2 p1 = .eq := by
  induction p1 generalizing p2 with
  | nil => cases p2 <;> rfl
  | cons x xs ih =>
    cases p2 with
    | nil => rfl
    | cons y ys =>
      simp only [pfx_equality_tri_compare, tri_compare] at h ⊢
      by_cases hxy : x < y
      · simp [hxy] at h
      · by_cases hyx : y < x
        · simp [hxy, hyx] at h
        · simp only [hxy, hyx, if_false] at h ⊢
          exact ih h

/-- At component-wise equal prefixes of equal length, the comparator is pure
weight comparison. -/
theorem cmp_same_pfx (p : List Int) (w1 w2 : Int) :
    compareBW p w1 p w2 = decide (w1 < w2) := by
  simp [compareBW, pfx_tri_self]

theorem cmp_shorter (p q : List Int) (w1 w2 : Int) (hq : q ≠ []) :
    compareBW p w1 (p ++ q) w2 = decide (w1 ≤ 0) := by
  have hlen : p.length < (p ++ q).length := by
    simp [List.length_append]
    exact List.length_pos.mpr hq
  simp [compareBW, pfx_tri_append, Nat.ne_of_lt hlen, hlen, hq,
    List.length_pos.mpr hq]

theorem cmp_longer (p q : List Int) (w1 w2 : Int) (hq : q ≠ []) :
    compareBW (p ++ q) w1 p w2 = decide (0 < w2) := by
  have hlen : p.length < (p ++ q).length := by
    simp [List.length_append]
    exact List.length_pos.mpr hq
  simp [compareBW, pfx_tri_append', Nat.ne_of_lt hlen,
    Nat.not_lt.mpr (Nat.le_of_lt hlen), (Nat.ne_of_lt hlen).symm, hq]

/-- C4: for a fixed schema, the bound comparator on (prefix, polarity) pairs
is a strict weak order — irreflexive, transitive, with transitive
incomparability — and two bounds that are `equal` are order-equivalent. -/
theorem C4_strict_weak_order :
    (∀ (p : List Int) (w : Int), compareBW p w p w = false) ∧
    (∀ (p1 p2 p3 : List Int) (w1 w2 w3 : Int),
      compareBW p1 w1 p2 w2 = true → compareBW p2 w2 p3 w3 = true →
      compareBW p1 w1 p3 w3 = true) ∧
    (∀ (p1 p2 p3 : List Int) (w1 w2 w3 : Int),
      compareBW p1 w1 p2 w2 = false → compareBW p2 w2 p1 w1 = false →
      compareBW p2 w2 p3 w3 = false → compareBW p3 w3 p2 w2 = false →
      compareBW p1 w1 p3 w3 = false ∧ compareBW p3 w3 p1 w1 = false) ∧
    (∀ b1 b2 : bound_view, b1.equal b2 = true →
      bv_lt b1 b2 = false ∧ bv_lt b2 b1 = false) := by
  refine ⟨cmp_irrefl, ?_, ?_, ?_⟩
  · intro p1 p2 p3 w1 w2 w3 h12 h23
    exact cmp_trans h12 h23
  · intro p1 p2 p3 w1 w2 w3 h12 h21 h23 h32
    obtain ⟨he, hw⟩ := cmp_eq_of_incomp h12 h21
    subst he; subst hw
    exact ⟨h23, h32⟩
  · intro b1 b2 heq
    simp only [bound_view.equal, Bool.and_eq_true, decide_eq_true_eq] at heq
    obtain ⟨hk, hp⟩ := heq
    simp only [bv_lt, hk, hp]
    exact ⟨cmp_irrefl _ _, cmp_irrefl _ _⟩

/-- Witness for C4 at concrete inputs. -/
theorem C4_strict_weak_order_witness :
    compareBW [1] (-1) [3] 1 = true :=
  C4_strict_weak_order.2.1 [1] [2] [3] (-1) 0 1 (by decide) (by decide)

/-- C5: a start-like bound on a prefix sorts strictly before the same kind of
bound on any one-component extension of it, which in turn sorts strictly
before an end-like bound on the original prefix. -/
theorem C5_tie_break (p : List Int) (x : Int) :
    bv_lt ⟨p, .incl_start⟩ ⟨p ++ [x], .incl_start⟩ = true ∧
    bv_lt ⟨p ++ [x], .incl_start⟩ ⟨p, .incl_end⟩ = true := by
  constructor
  · rw [bv_lt]
    simp only [weight]
    rw [cmp_shorter p [x] (-1) (-1) (by simp)]
    decide
  · rw [bv_lt]
    simp only [weight]
    rw [cmp_longer p [x] (-1) 1 (by simp)]
    decide

/-- Counterexample to C6: at the empty prefix, the bounds `excl_end` and
`incl_start` share polarity and are order-equivalent although their kinds
differ, so order-equivalence does not force equal kinds. -/
theorem C6_counterexample :
    bv_lt ⟨[], .excl_end⟩ ⟨[], .incl_start⟩ = false ∧
    bv_lt ⟨[], .incl_start⟩ ⟨[], .excl_end⟩ = false ∧
    weight .excl_end = weight .incl_start ∧
    bound_kind.excl_end ≠ bound_kind.incl_start := by
  refine ⟨by decide, by decide, by decide, by decide⟩

/-- C6 (amended): for two bounds over component-wise schema-equal prefixes of
equal length, the comparator orders start-like strictly before end-like, and
two such bounds of equal polarity are always order-equivalent, whether or not
their bound kinds are equal. -/
theorem C6_amended (p1 p2 : List Int)
    (hlen : p1.length = p2.length)
    (heq : pfx_equality_tri_compare p1 p2 = .eq) :
    (∀ k1 k2 : bound_kind, weight k1 < weight k2 →
      bv_lt ⟨p1, k1⟩ ⟨p2, k2⟩ = true) ∧
    (∀ k1 k2 : bound_kind, weight k1 = weight k2 →
      bv_lt ⟨p1, k1⟩ ⟨p2, k2⟩ = false ∧ bv_lt ⟨p2, k2⟩ ⟨p1, k1⟩ = false) := by
  have heq' := pfx_tri_symm_eq heq
  constructor
  · intro k1 k2 hw
    simp [bv_lt, compareBW, heq, hlen, hw]
  · intro k1 k2 hw
    constructor
    · simp [bv_lt, compareBW, heq, hlen, hw]
    · simp [bv_lt, compareBW, heq', hlen.symm, hw]

/-- Witness for C6 (amended) at concrete inputs. -/
theorem C6_amended_witness :
    bv_lt ⟨[4], .incl_start⟩ ⟨[4], .excl_start⟩ = true :=
  (C6_amended [4] [4] rfl (by decide)).1 .incl_start .excl_start (by decide)

/-- C7: `flip` is an involution, and a single flip swaps the start and end
prefixes and replaces each kind by its direction-flip. -/
theorem C7_flip_involution (rt : range_tombstone) :
    rt.flip.flip = rt ∧
    rt.flip.flip.equal rt = true ∧
    rt.flip = ⟨rt.endp, flip_bound_kind rt.end_kind, rt.start,
      flip_bound_kind rt.start_kind, rt.tomb⟩ := by
  obtain ⟨s, sk, e, ek, t⟩ := rt
  refine ⟨?_, ?_, rfl⟩
  · simp only [range_tombstone.flip]
    cases sk <;> cases ek <;> rfl
  · simp only [range_tombstone.flip]
    cases sk <;> cases ek <;>
      simp [range_tombstone.equal, bound_view.equal, range_tombstone.start_bound,
        range_tombstone.end_bound, flip_bound_kind]

/-- C8: adjacency of bounds is symmetric, and holds exactly when the prefixes
are schema-equal and the kinds are complements of each other. -/
theorem C8_adjacent_symm (b1 b2 : bound_view) :
    b1.adjacent b2 = b2.adjacent b1 ∧
    (b1.adjacent b2 = true ↔ b1.pref = b2.pref ∧ b1.kind = invert_kind b2.kind) := by
  obtain ⟨p1, k1⟩ := b1
  obtain ⟨p2, k2⟩ := b2
  constructor
  · cases k1 <;> cases k2 <;>
      simp [bound_view.adjacent, invert_kind] <;> exact eq_comm
  · cases k1 <;> cases k2 <;>
      simp [bound_view.adjacent, invert_kind, eq_comm]

/-- C9: `feed_hash` always hashes the start prefix first and the tombstone
last, hashes the `(start_kind, end, end_kind)` triple in between exactly when
the range is not of the canonical single-row form (`start` schema-equal to
`end`, `incl_start`, `incl_end`), and that condition does not require the
start prefix to be a full clustering key (witnessed by a one-component prefix
under a two-column schema, for which `is_single_clustering_row_tombstone` is
false but the triple is still skipped). -/
theorem C9_feed_hash :
    (∀ rt : range_tombstone, ∃ mid : List htoken,
      rt.feed_hash = hashKey rt.start ++ mid ++ [htoken.htomb rt.tomb] ∧
      (mid = [] ↔ (rt.start = rt.endp ∧ rt.start_kind = bound_kind.incl_start
        ∧ rt.end_kind = bound_kind.incl_end)) ∧
      (mid = [] ∨ mid = htoken.hkind rt.start_kind ::
        (hashKey rt.endp ++ [htoken.hkind rt.end_kind]))) ∧
    range_tombstone.feed_hash ⟨[5], .incl_start, [5], .incl_end, ⟨7, 8⟩⟩
      = hashKey [5] ++ [htoken.htomb ⟨7, 8⟩] ∧
    is_full 2 [5] = false ∧
    is_single_clustering_row_tombstone 2 [5] .incl_start [5] .incl_end = false := by
  refine ⟨?_, by decide, by decide, by decide⟩
  intro rt
  by_cases h : rt.start = rt.endp ∧ rt.start_kind = bound_kind.incl_start
      ∧ rt.end_kind = bound_kind.incl_end
  · refine ⟨[], ?_, by simp [h], Or.inl rfl⟩
    obtain ⟨h1, h2, h3⟩ := h
    simp [range_tombstone.feed_hash, h1, h2, h3]
  · refine ⟨htoken.hkind rt.start_kind ::
      (hashKey rt.endp ++ [htoken.hkind rt.end_kind]), ?_, by simp [h], Or.inr rfl⟩
    have hcond : ¬ rt.start = rt.endp ∨ ¬ rt.start_kind = bound_kind.incl_start
        ∨ ¬ rt.end_kind = bound_kind.incl_end := by tauto
    simp [range_tombstone.feed_hash, hcond]

/-- C10: the comparator places a bare prefix strictly after the start-like
bounds and strictly before the end-like bounds on a schema-equal prefix of the
same length, so inclusive bounds on `p` cover the row `p` itself while
exclusive ones exclude it. -/
theorem C10_row_vs_bounds (p : List Int) (t : tombstone) :
    bv_lt_row ⟨p, .incl_start⟩ p = true ∧
    bv_lt_row ⟨p, .excl_end⟩ p = true ∧
    row_lt_bv p ⟨p, .incl_end⟩ = true ∧
    row_lt_bv p ⟨p, .excl_start⟩ = true ∧
    covers ⟨p, .incl_start, p, .incl_end, t⟩ p = true ∧
    covers ⟨p, .excl_start, p, .incl_end, t⟩ p = false ∧
    covers ⟨p, .incl_start, p, .excl_end, t⟩ p = false := by
  refine ⟨?_, ?_, ?_, ?_, ?_, ?_, ?_⟩ <;>
    simp [bv_lt_row, row_lt_bv, covers, range_tombstone.start_bound,
      range_tombstone.end_bound, weight, cmp_same_pfx]

/-- No row lies both at-or-before a bound and at-or-after its complementary
bound: the bound and its complement carry the same weight, and a row (weight
0) is strictly comparable to either. -/
theorem no_row_between_adjacent (e : bound_view) (ck : List Int)
    (h1 : bv_lt_row e ck = false)
    (h2 : row_lt_bv ck ⟨e.pref, invert_kind e.kind⟩ = false) : False := by
  rcases row_bound_total ck e with h | h
  · rw [row_lt_bv] at h2
    simp only [weight_invert] at h2
    rw [h] at h2
    simp at h2
  · rw [bv_lt_row] at h1
    rw [h] at h1
    simp at h1

theorem apply_fst (a b : range_tombstone) :
    (a.apply b).1 =
      { a with
        endp := (minBound a.end_bound b.end_bound).pref
        end_kind := (minBound a.end_bound b.end_bound).kind
        tomb := if a.tomb.timestamp < b.tomb.timestamp then b.tomb else a.tomb } :=
  rfl

theorem apply_snd (a b : range_tombstone) :
    (a.apply b).2 =
      if bv_lt (minBound a.end_bound b.end_bound)
          (if a.tomb.timestamp < b.tomb.timestamp then a.end_bound else b.end_bound)
        then some
          { start := (minBound a.end_bound b.end_bound).pref
            start_kind := invert_kind (minBound a.end_bound b.end_bound).kind
            endp := (if a.tomb.timestamp < b.tomb.timestamp then a.end_bound
              else b.end_bound).pref
            end_kind := (if a.tomb.timestamp < b.tomb.timestamp then a.end_bound
              else b.end_bound).kind
            tomb := if a.tomb.timestamp < b.tomb.timestamp then a.tomb else b.tomb }
        else none :=
  rfl

theorem apply_fst_end_bound (a b : range_tombstone) :
    (a.apply b).1.end_bound = minBound a.end_bound b.end_bound :=
  rfl

theorem bv_irrefl (x : bound_view) : bv_lt x x = false :=
  cmp_irrefl x.pref (weight x.kind)

theorem bv_asymm {x y : bound_view} (h : bv_lt x y = true) : bv_lt y x = false :=
  cmp_asymm h

theorem minBound_or (x y : bound_view) : minBound x y = x ∨ minBound x y = y := by
  rw [minBound]
  split
  · exact Or.inr rfl
  · exact Or.inl rfl

theorem minBound_le_left (x y : bound_view) : bv_lt x (minBound x y) = false := by
  rw [minBound]
  cases h : bv_lt y x with
  | false => simp [bv_irrefl]
  | true => simp [bv_asymm h]

theorem minBound_le_right (x y : bound_view) : bv_lt y (minBound x y) = false := by
  rw [minBound]
  cases h : bv_lt y x with
  | false => simp [h]
  | true => simp [bv_irrefl]

/-- A range tombstone whose start bound is the complement of another's end
bound never shares a covered row with it. -/
theorem trunc_rem_disjoint (r1 r2 : range_tombstone)
    (hs : r2.start = r1.endp) (hk : r2.start_kind = invert_kind r1.end_kind) :
    ∀ ck : List Int, ¬(covers r1 ck = true ∧ covers r2 ck = true) := by
  intro ck hc
  obtain ⟨h1, h2⟩ := hc
  simp only [covers, Bool.and_eq_true, Bool.not_eq_true'] at h1 h2
  refine no_row_between_adjacent r1.end_bound ck h1.2 ?_
  have h21 := h2.1
  rw [range_tombstone.start_bound, hs, hk] at h21
  exact h21

/-- C2: applying `B` to `A` when both share a start bound keeps the
strictly-higher-priority tombstone (ties keep `A`'s), truncates `A` to the
minimum of the two end bounds with `A`'s start unchanged, and returns a
remainder exactly when the loser's original end bound lies strictly beyond
that minimum; the remainder then starts at the minimum with the complementary
(adjacent) start kind, ends at the loser's original end bound, carries the
loser's tombstone, and never overlaps the truncated `A`. -/
theorem C2_apply_same_start (a b : range_tombstone)
    (_hstart : a.start_bound.equal b.start_bound = true) :
    ((a.apply b).1.tomb
      = if a.tomb.timestamp < b.tomb.timestamp then b.tomb else a.tomb) ∧
    (a.apply b).1.start = a.start ∧
    (a.apply b).1.start_kind = a.start_kind ∧
    ((a.apply b).1.end_bound = a.end_bound ∨ (a.apply b).1.end_bound = b.end_bound) ∧
    bv_lt a.end_bound (a.apply b).1.end_bound = false ∧
    bv_lt b.end_bound (a.apply b).1.end_bound = false ∧
    (bv_lt (a.apply b).1.end_bound
        (if a.tomb.timestamp < b.tomb.timestamp then a.end_bound else b.end_bound)
        = true →
      ∃ rem : range_tombstone, (a.apply b).2 = some rem ∧
        rem.start_bound = ⟨(a.apply b).1.endp, invert_kind (a.apply b).1.end_kind⟩ ∧
        (a.apply b).1.end_bound.adjacent rem.start_bound = true ∧
        rem.end_bound
          = (if a.tomb.timestamp < b.tomb.timestamp then a.end_bound else b.end_bound) ∧
        rem.tomb
          = (if a.tomb.timestamp < b.tomb.timestamp then a.tomb else b.tomb) ∧
        ∀ ck : List Int, ¬(covers (a.apply b).1 ck = true ∧ covers rem ck = true)) ∧
    (bv_lt (a.apply b).1.end_bound
        (if a.tomb.timestamp < b.tomb.timestamp then a.end_bound else b.end_bound)
        = false →
      (a.apply b).2 = none) := by
  refine ⟨by rw [apply_fst], by rw [apply_fst], by rw [apply_fst],
    ?_, ?_, ?_, ?_, ?_⟩
  · rw [apply_fst_end_bound]
    exact minBound_or a.end_bound b.end_bound
  · rw [apply_fst_end_bound]
    exact minBound_le_left a.end_bound b.end_bound
  · rw [apply_fst_end_bound]
    exact minBound_le_right a.end_bound b.end_bound
  · intro hlt
    rw [apply_fst_end_bound] at hlt
    refine ⟨{ start := (minBound a.end_bound b.end_bound).pref,
              start_kind := invert_kind (minBound a.end_bound b.end_bound).kind,
              endp := (if a.tomb.timestamp < b.tomb.timestamp then a.end_bound
                else b.end_bound).pref,
              end_kind := (if a.tomb.timestamp < b.tomb.timestamp then a.end_bound
                else b.end_bound).kind,
              tomb := if a.tomb.timestamp < b.tomb.timestamp then a.tomb
                else b.tomb },
      by rw [apply_snd, if_pos hlt], rfl, ?_, ?_, ?_, ?_⟩
    · rw [apply_fst_end_bound]
      simp [bound_view.adjacent, range_tombstone.start_bound, invert_invert]
    · cases hw : decide (a.tomb.timestamp < b.tomb.timestamp) <;>
        simp_all [range_tombstone.end_bound]
    · rfl
    · intro ck
      refine trunc_rem_disjoint (a.apply b).1 _ ?_ ?_ ck
      · rw [apply_fst]
      · rw [apply_fst]
  · intro hge
    rw [apply_fst_end_bound] at hge
    rw [apply_snd, if_neg ?_]
    rw [hge]
    exact Bool.false_ne_true

/-- Witness for C2 at a concrete same-start pair. -/
theorem C2_apply_same_start_witness :
    (range_tombstone.mk [1] .incl_start [3] .incl_end ⟨1, 0⟩).start_bound.equal
        (range_tombstone.mk [1] .incl_start [5] .incl_end ⟨2, 0⟩).start_bound
      = true ∧
    ((range_tombstone.mk [1] .incl_start [3] .incl_end ⟨1, 0⟩).apply
        (range_tombstone.mk [1] .incl_start [5] .incl_end ⟨2, 0⟩)).1.tomb
      = ⟨2, 0⟩ := by
  refine ⟨by decide, ?_⟩
  have h := (C2_apply_same_start
    (range_tombstone.mk [1] .incl_start [3] .incl_end ⟨1, 0⟩)
    (range_tombstone.mk [1] .incl_start [5] .incl_end ⟨2, 0⟩) (by decide)).1
  rw [h]
  decide

/-! ### Accumulator buffer invariant (C3) -/

theorem bv_le_trans {x y z : bound_view} (h1 : bv_lt y x = false)
    (h2 : bv_lt z y = false) : bv_lt z x = false :=
  cmp_le_trans h1 h2

theorem bv_lt_of_le_of_lt {x y z : bound_view} (h1 : bv_lt y x = false)
    (h2 : bv_lt y z = true) : bv_lt x z = true :=
  cmp_lt_of_le_of_lt h1 h2

theorem bv_lt_of_lt_of_le {x y z : bound_view} (h1 : bv_lt x y = true)
    (h2 : bv_lt z y = false) : bv_lt x z = true :=
  cmp_lt_of_lt_of_le h1 h2

theorem bv_congr_left {x x' : bound_view} (hp : x.pref = x'.pref)
    (hw : weight x.kind = weight x'.kind) (y : bound_view) :
    bv_lt x y = bv_lt x' y := by
  rw [bv_lt, bv_lt, hp, hw]

theorem bv_congr_right {x x' : bound_view} (hp : x.pref = x'.pref)
    (hw : weight x.kind = weight x'.kind) (y : bound_view) :
    bv_lt y x = bv_lt y x' := by
  rw [bv_lt, bv_lt, hp, hw]

/-- Characterisation of a returned remainder. -/
theorem apply_snd_some {a b r : range_tombstone}
    (h : (a.apply b).2 = some r) :
    r.start = (minBound a.end_bound b.end_bound).pref ∧
    r.start_kind = invert_kind (minBound a.end_bound b.end_bound).kind ∧
    (r.end_bound = a.end_bound ∨ r.end_bound = b.end_bound) ∧
    bv_lt (minBound a.end_bound b.end_bound) r.end_bound = true ∧
    (r.tomb = a.tomb ∨ r.tomb = b.tomb) := by
  rw [apply_snd] at h
  by_cases hc : bv_lt (minBound a.end_bound b.end_bound)
      (if a.tomb.timestamp < b.tomb.timestamp then a.end_bound else b.end_bound)
      = true
  · rw [if_pos hc] at h
    have hr := (Option.some.inj h).symm
    subst hr
    refine ⟨rfl, rfl, ?_, ?_, ?_⟩
    · by_cases hw : a.tomb.timestamp < b.tomb.timestamp
      · exact Or.inl (by simp [hw, range_tombstone.end_bound])
      · exact Or.inr (by simp [hw, range_tombstone.end_bound])
    · by_cases hw : a.tomb.timestamp < b.tomb.timestamp
      · simpa [hw, range_tombstone.end_bound] using hc
      · simpa [hw, range_tombstone.end_bound] using hc
    · by_cases hw : a.tomb.timestamp < b.tomb.timestamp
      · exact Or.inl (by simp [hw])
      · exact Or.inr (by simp [hw])
  · rw [if_neg hc] at h
    cases h

/-- A returned remainder is always well formed. -/
theorem apply_rem_wf {a b r : range_tombstone}
    (h : (a.apply b).2 = some r) : wfRT r = true := by
  obtain ⟨hp, hk, -, hlt, -⟩ := apply_snd_some h
  rw [wfRT, Bool.not_eq_true']
  have hcg := @bv_congr_right r.start_bound
    (minBound a.end_bound b.end_bound)
    (by rw [range_tombstone.start_bound, hp])
    (by rw [range_tombstone.start_bound, hk, weight_invert]) r.end_bound
  rw [hcg]
  exact bv_asymm hlt

/-- The merged result of two well-formed same-start tombstones is well
formed. -/
theorem apply_fst_wf {a b : range_tombstone}
    (ha : wfRT a = true) (hb : wfRT b = true)
    (hp : a.start = b.start) (hw : weight a.start_kind = weight b.start_kind) :
    wfRT (a.apply b).1 = true := by
  rw [wfRT, Bool.not_eq_true'] at ha hb ⊢
  have hsb : (a.apply b).1.start_bound = a.start_bound := rfl
  rw [hsb, apply_fst_end_bound]
  rcases minBound_or a.end_bound b.end_bound with hm | hm
  · rw [hm]
    exact ha
  · rw [hm]
    have hcg := @bv_congr_right a.start_bound b.start_bound
      (by rw [range_tombstone.start_bound, range_tombstone.start_bound, hp])
      (by rw [range_tombstone.start_bound, range_tombstone.start_bound]; exact hw)
      b.end_bound
    rw [hcg]
    exact hb

/-- The tail of an insertion after a merge: the cascaded remainder, if any,
inserted into the remaining buffer. -/
def restOf (t : List range_tombstone) : Option range_tombstone → List range_tombstone
  | some r => insertRT t r
  | none => t

theorem splitFront_start_bound (h rt : range_tombstone) :
    (splitFront h rt).start_bound = h.start_bound := rfl

theorem splitBack_start_bound (h rt : range_tombstone) :
    (splitBack h rt).start_bound = rt.start_bound := rfl

theorem splitBack_end_bound (h rt : range_tombstone) :
    (splitBack h rt).end_bound = h.end_bound := rfl

theorem splitFront_end_pair (h rt : range_tombstone) :
    (splitFront h rt).end_bound.pref = rt.start_bound.pref ∧
    weight (splitFront h rt).end_bound.kind = weight rt.start_bound.kind := by
  exact ⟨rfl, weight_invert rt.start_kind⟩

theorem insertRT_nil (rt : range_tombstone) : insertRT [] rt = [rt] := rfl

theorem insertRT_cons_before {h rt : range_tombstone} (t : List range_tombstone)
    (c1 : bv_lt h.end_bound rt.start_bound = true) :
    insertRT (h :: t) rt = h :: insertRT t rt := by
  simp [insertRT, c1]

theorem insertRT_cons_after {h rt : range_tombstone} (t : List range_tombstone)
    (c1 : bv_lt h.end_bound rt.start_bound = false)
    (c2 : bv_lt rt.end_bound h.start_bound = true) :
    insertRT (h :: t) rt = rt :: h :: t := by
  simp [insertRT, c1, c2]

theorem insertRT_cons_split_h {h rt : range_tombstone} (t : List range_tombstone)
    (c1 : bv_lt h.end_bound rt.start_bound = false)
    (c2 : bv_lt rt.end_bound h.start_bound = false)
    (c3 : bv_lt h.start_bound rt.start_bound = true) :
    insertRT (h :: t) rt = splitFront h rt :: ((splitBack h rt).apply rt).1 ::
      restOf t ((splitBack h rt).apply rt).2 := by
  cases hm : ((splitBack h rt).apply rt).2 with
  | none => simp [insertRT, c1, c2, c3, restOf, hm]
  | some r => simp [insertRT, c1, c2, c3, restOf, hm]

theorem insertRT_cons_split_rt {h rt : range_tombstone} (t : List range_tombstone)
    (c1 : bv_lt h.end_bound rt.start_bound = false)
    (c2 : bv_lt rt.end_bound h.start_bound = false)
    (c3 : bv_lt h.start_bound rt.start_bound = false)
    (c4 : bv_lt rt.start_bound h.start_bound = true) :
    insertRT (h :: t) rt = splitFront rt h :: (h.apply (splitBack rt h)).1 ::
      restOf t (h.apply (splitBack rt h)).2 := by
  cases hm : (h.apply (splitBack rt h)).2 with
  | none => simp [insertRT, c1, c2, c3, c4, restOf, hm]
  | some r => simp [insertRT, c1, c2, c3, c4, restOf, hm]

theorem insertRT_cons_same {h rt : range_tombstone} (t : List range_tombstone)
    (c1 : bv_lt h.end_bound rt.start_bound = false)
    (c2 : bv_lt rt.end_bound h.start_bound = false)
    (c3 : bv_lt h.start_bound rt.start_bound = false)
    (c4 : bv_lt rt.start_bound h.start_bound = false) :
    insertRT (h :: t) rt = (h.apply rt).1 :: restOf t (h.apply rt).2 := by
  cases hm : (h.apply rt).2 with
  | none => simp [insertRT, c1, c2, c3, c4, restOf, hm]
  | some r => simp [insertRT, c1, c2, c3, c4, restOf, hm]

theorem apply_fst_start_bound (a b : range_tombstone) :
    (a.apply b).1.start_bound = a.start_bound := rfl

theorem apply_rem_start_pair {a b r : range_tombstone}
    (h : (a.apply b).2 = some r) :
    r.start_bound.pref = (minBound a.end_bound b.end_bound).pref ∧
    weight r.start_bound.kind = weight (minBound a.end_bound b.end_bound).kind := by
  obtain ⟨hp, hk, -, -, -⟩ := apply_snd_some h
  constructor
  · rw [range_tombstone.start_bound]
    exact hp
  · rw [range_tombstone.start_bound]
    rw [hk, weight_invert]

theorem apply_rem_start_ge {a b r : range_tombstone}
    (h : (a.apply b).2 = some r) (x : bound_view)
    (hA : bv_lt a.end_bound x = false) (hB : bv_lt b.end_bound x = false) :
    bv_lt r.start_bound x = false := by
  obtain ⟨hp, hk⟩ := apply_rem_start_pair h
  rw [bv_congr_left hp hk x]
  rcases minBound_or a.end_bound b.end_bound with hm | hm <;> rw [hm]
  · exact hA
  · exact hB

theorem apply_rem_start_ge_min {a b r : range_tombstone}
    (h : (a.apply b).2 = some r) :
    bv_lt r.start_bound (minBound a.end_bound b.end_bound) = false := by
  obtain ⟨hp, hk⟩ := apply_rem_start_pair h
  rw [bv_congr_left hp hk]
  exact bv_irrefl _

theorem splitFront_wf {h rt : range_tombstone}
    (c3 : bv_lt h.start_bound rt.start_bound = true) :
    wfRT (splitFront h rt) = true := by
  rw [wfRT, Bool.not_eq_true']
  obtain ⟨hp, hk⟩ := splitFront_end_pair h rt
  rw [bv_congr_left hp hk]
  exact bv_asymm c3

theorem splitBack_wf {h rt : range_tombstone}
    (c1 : bv_lt h.end_bound rt.start_bound = false) :
    wfRT (splitBack h rt) = true := by
  rw [wfRT, Bool.not_eq_true']
  exact c1

/-- `insertRT` preserves well-formedness of every buffered entry. -/
theorem insert_wf (L : List range_tombstone) : ∀ (rt : range_tombstone),
    (∀ b ∈ L, wfRT b = true) → wfRT rt = true →
    ∀ c ∈ insertRT L rt, wfRT c = true := by
  induction L with
  | nil =>
    intro rt _ hwrt c hc
    rw [insertRT_nil] at hc
    simp at hc
    subst hc
    exact hwrt
  | cons h t ih =>
    intro rt hwL hwrt c hc
    have hwh : wfRT h = true := hwL h (by simp)
    have hwt : ∀ b ∈ t, wfRT b = true := fun b hb => hwL b (by simp [hb])
    cases c1 : bv_lt h.end_bound rt.start_bound with
    | true =>
      rw [insertRT_cons_before t c1] at hc
      rcases List.mem_cons.mp hc with rfl | hc'
      · exact hwh
      · exact ih rt hwt hwrt c hc'
    | false =>
      cases c2 : bv_lt rt.end_bound h.start_bound with
      | true =>
        rw [insertRT_cons_after t c1 c2] at hc
        rcases List.mem_cons.mp hc with rfl | hc'
        · exact hwrt
        · rcases List.mem_cons.mp hc' with rfl | hc''
          · exact hwh
          · exact hwt c hc''
      | false =>
        cases c3 : bv_lt h.start_bound rt.start_bound with
        | true =>
          rw [insertRT_cons_split_h t c1 c2 c3] at hc
          rcases List.mem_cons.mp hc with rfl | hc'
          · exact splitFront_wf c3
          · rcases List.mem_cons.mp hc' with rfl | hc''
            · exact apply_fst_wf (splitBack_wf c1) hwrt rfl rfl
            · rcases ho : ((splitBack h rt).apply rt).2 with _ | r <;>
                rw [ho] at hc'' <;> simp only [restOf] at hc''
              · exact hwt c hc''
              · exact ih r hwt (apply_rem_wf ho) c hc''
        | false =>
          cases c4 : bv_lt rt.start_bound h.start_bound with
          | true =>
            rw [insertRT_cons_split_rt t c1 c2 c3 c4] at hc
            rcases List.mem_cons.mp hc with rfl | hc'
            · exact splitFront_wf c4
            · rcases List.mem_cons.mp hc' with rfl | hc''
              · exact apply_fst_wf hwh (splitBack_wf c2) rfl rfl
              · rcases ho : (h.apply (splitBack rt h)).2 with _ | r <;>
                  rw [ho] at hc'' <;> simp only [restOf] at hc''
                · exact hwt c hc''
                · exact ih r hwt (apply_rem_wf ho) c hc''
          | false =>
            obtain ⟨hp, hwgt⟩ := cmp_eq_of_incomp c3 c4
            rw [insertRT_cons_same t c1 c2 c3 c4] at hc
            rcases List.mem_cons.mp hc with rfl | hc'
            · exact apply_fst_wf hwh hwrt hp hwgt
            · rcases ho : (h.apply rt).2 with _ | r <;>
                rw [ho] at hc' <;> simp only [restOf] at hc'
              · exact hwt c hc'
              · exact ih r hwt (apply_rem_wf ho) c hc'

theorem wfRT_le {rt : range_tombstone} (h : wfRT rt = true) :
    bv_lt rt.end_bound rt.start_bound = false := by
  rw [wfRT, Bool.not_eq_true'] at h
  exact h

/-- Every entry produced by `insertRT` has its start bound at or after any
position that lay at or before all input starts. -/
theorem insert_starts_ge (x : bound_view) (L : List range_tombstone) :
    ∀ (rt : range_tombstone),
    (∀ b ∈ L, wfRT b = true) → wfRT rt = true →
    (∀ b ∈ L, bv_lt b.start_bound x = false) →
    bv_lt rt.start_bound x = false →
    ∀ c ∈ insertRT L rt, bv_lt c.start_bound x = false := by
  induction L with
  | nil =>
    intro rt _ _ _ hgert c hc
    rw [insertRT_nil] at hc
    simp at hc
    subst hc
    exact hgert
  | cons h t ih =>
    intro rt hwL hwrt hgeL hgert c hc
    have hwh : wfRT h = true := hwL h (by simp)
    have hwt : ∀ b ∈ t, wfRT b = true := fun b hb => hwL b (by simp [hb])
    have hgeh : bv_lt h.start_bound x = false := hgeL h (by simp)
    have hget : ∀ b ∈ t, bv_lt b.start_bound x = false :=
      fun b hb => hgeL b (by simp [hb])
    cases c1 : bv_lt h.end_bound rt.start_bound with
    | true =>
      rw [insertRT_cons_before t c1] at hc
      rcases List.mem_cons.mp hc with rfl | hc'
      · exact hgeh
      · exact ih rt hwt hwrt hget hgert c hc'
    | false =>
      cases c2 : bv_lt rt.end_bound h.start_bound with
      | true =>
        rw [insertRT_cons_after t c1 c2] at hc
        rcases List.mem_cons.mp hc with rfl | hc'
        · exact hgert
        · rcases List.mem_cons.mp hc' with rfl | hc''
          · exact hgeh
          · exact hget c hc''
      | false =>
        cases c3 : bv_lt h.start_bound rt.start_bound with
        | true =>
          rw [insertRT_cons_split_h t c1 c2 c3] at hc
          rcases List.mem_cons.mp hc with rfl | hc'
          · exact hgeh
          · rcases List.mem_cons.mp hc' with rfl | hc''
            · exact hgert
            · rcases ho : ((splitBack h rt).apply rt).2 with _ | r <;>
                rw [ho] at hc'' <;> simp only [restOf] at hc''
              · exact hget c hc''
              · refine ih r hwt (apply_rem_wf ho) hget ?_ c hc''
                exact apply_rem_start_ge ho x (bv_le_trans hgert c1)
                  (bv_le_trans hgert (wfRT_le hwrt))
        | false =>
          cases c4 : bv_lt rt.start_bound h.start_bound with
          | true =>
            rw [insertRT_cons_split_rt t c1 c2 c3 c4] at hc
            rcases List.mem_cons.mp hc with rfl | hc'
            · exact hgert
            · rcases List.mem_cons.mp hc' with rfl | hc''
              · exact hgeh
              · rcases ho : (h.apply (splitBack rt h)).2 with _ | r <;>
                  rw [ho] at hc'' <;> simp only [restOf] at hc''
                · exact hget c hc''
                · refine ih r hwt (apply_rem_wf ho) hget ?_ c hc''
                  exact apply_rem_start_ge ho x (bv_le_trans hgeh (wfRT_le hwh))
                    (bv_le_trans hgert (wfRT_le hwrt))
          | false =>
            rw [insertRT_cons_same t c1 c2 c3 c4] at hc
            rcases List.mem_cons.mp hc with rfl | hc'
            · exact hgeh
            · rcases ho : (h.apply rt).2 with _ | r <;>
                rw [ho] at hc' <;> simp only [restOf] at hc'
              · exact hget c hc'
              · refine ih r hwt (apply_rem_wf ho) hget ?_ c hc'
                exact apply_rem_start_ge ho x (bv_le_trans hgeh (wfRT_le hwh))
                  (bv_le_trans hgert (wfRT_le hwrt))

/-- Disjointness of two ordered buffer entries: the second starts at or after
the first ends. -/
def disjR (x y : range_tombstone) : Prop :=
  bv_lt y.start_bound x.end_bound = false

/-- `insertRT` preserves pairwise disjointness of the buffer. -/
theorem insert_pw (L : List range_tombstone) : ∀ (rt : range_tombstone),
    (∀ b ∈ L, wfRT b = true) → wfRT rt = true →
    L.Pairwise disjR → (insertRT L rt).Pairwise disjR := by
  induction L with
  | nil =>
    intro rt _ _ _
    rw [insertRT_nil]
    simp
  | cons h t ih =>
    intro rt hwL hwrt hpw
    have hwh : wfRT h = true := hwL h (by simp)
    have hwt : ∀ b ∈ t, wfRT b = true := fun b hb => hwL b (by simp [hb])
    rw [List.pairwise_cons] at hpw
    obtain ⟨hpw1, hpw2⟩ := hpw
    cases c1 : bv_lt h.end_bound rt.start_bound with
    | true =>
      rw [insertRT_cons_before t c1]
      rw [List.pairwise_cons]
      refine ⟨?_, ih rt hwt hwrt hpw2⟩
      intro c hc
      exact insert_starts_ge h.end_bound t rt hwt hwrt hpw1 (bv_asymm c1) c hc
    | false =>
      cases c2 : bv_lt rt.end_bound h.start_bound with
      | true =>
        rw [insertRT_cons_after t c1 c2]
        rw [List.pairwise_cons]
        refine ⟨?_, by rw [List.pairwise_cons]; exact ⟨hpw1, hpw2⟩⟩
        intro c hc
        rcases List.mem_cons.mp hc with rfl | hc'
        · exact bv_asymm c2
        · exact bv_le_trans (bv_le_trans (bv_asymm c2) (wfRT_le hwh)) (hpw1 c hc')
      | false =>
        cases c3 : bv_lt h.start_bound rt.start_bound with
        | true =>
          rw [insertRT_cons_split_h t c1 c2 c3]
          rw [List.pairwise_cons]
          constructor
          · intro c hc
            rw [disjR, bv_congr_right (splitFront_end_pair h rt).1
              (splitFront_end_pair h rt).2]
            rcases List.mem_cons.mp hc with rfl | hc'
            · exact bv_irrefl _
            · rcases ho : ((splitBack h rt).apply rt).2 with _ | r <;>
                rw [ho] at hc' <;> simp only [restOf] at hc'
              · exact bv_le_trans c1 (hpw1 c hc')
              · refine insert_starts_ge rt.start_bound t r hwt (apply_rem_wf ho)
                  (fun b hb => bv_le_trans c1 (hpw1 b hb)) ?_ c hc'
                exact apply_rem_start_ge ho rt.start_bound c1 (wfRT_le hwrt)
          · rw [List.pairwise_cons]
            constructor
            · intro c hc
              rw [disjR, apply_fst_end_bound]
              rcases ho : ((splitBack h rt).apply rt).2 with _ | r <;>
                rw [ho] at hc <;> simp only [restOf] at hc
              · exact bv_le_trans (minBound_le_left _ _) (hpw1 c hc)
              · refine insert_starts_ge _ t r hwt (apply_rem_wf ho)
                  (fun b hb => bv_le_trans (minBound_le_left _ _) (hpw1 b hb))
                  (apply_rem_start_ge_min ho) c hc
            · rcases ho : ((splitBack h rt).apply rt).2 with _ | r <;>
                simp only [restOf]
              · exact hpw2
              · exact ih r hwt (apply_rem_wf ho) hpw2
        | false =>
          cases c4 : bv_lt rt.start_bound h.start_bound with
          | true =>
            rw [insertRT_cons_split_rt t c1 c2 c3 c4]
            rw [List.pairwise_cons]
            constructor
            · intro c hc
              rw [disjR, bv_congr_right (splitFront_end_pair rt h).1
                (splitFront_end_pair rt h).2]
              rcases List.mem_cons.mp hc with rfl | hc'
              · exact bv_irrefl _
              · rcases ho : (h.apply (splitBack rt h)).2 with _ | r <;>
                  rw [ho] at hc' <;> simp only [restOf] at hc'
                · exact bv_le_trans (wfRT_le hwh) (hpw1 c hc')
                · refine insert_starts_ge h.start_bound t r hwt (apply_rem_wf ho)
                    (fun b hb => bv_le_trans (wfRT_le hwh) (hpw1 b hb)) ?_ c hc'
                  exact apply_rem_start_ge ho h.start_bound (wfRT_le hwh) c2
            · rw [List.pairwise_cons]
              constructor
              · intro c hc
                rw [disjR, apply_fst_end_bound]
                rcases ho : (h.apply (splitBack rt h)).2 with _ | r <;>
                  rw [ho] at hc <;> simp only [restOf] at hc
                · exact bv_le_trans (minBound_le_left _ _) (hpw1 c hc)
                · refine insert_starts_ge _ t r hwt (apply_rem_wf ho)
                    (fun b hb => bv_le_trans (minBound_le_left _ _) (hpw1 b hb))
                    (apply_rem_start_ge_min ho) c hc
              · rcases ho : (h.apply (splitBack rt h)).2 with _ | r <;>
                  simp only [restOf]
                · exact hpw2
                · exact ih r hwt (apply_rem_wf ho) hpw2
          | false =>
            rw [insertRT_cons_same t c1 c2 c3 c4]
            rw [List.pairwise_cons]
            constructor
            · intro c hc
              rw [disjR, apply_fst_end_bound]
              rcases ho : (h.apply rt).2 with _ | r <;>
                rw [ho] at hc <;> simp only [restOf] at hc
              · exact bv_le_trans (minBound_le_left _ _) (hpw1 c hc)
              · refine insert_starts_ge _ t r hwt (apply_rem_wf ho)
                  (fun b hb => bv_le_trans (minBound_le_left _ _) (hpw1 b hb))
                  (apply_rem_start_ge_min ho) c hc
            · rcases ho : (h.apply rt).2 with _ | r <;>
                simp only [restOf]
              · exact hpw2
              · exact ih r hwt (apply_rem_wf ho) hpw2

/-- The accumulator buffer invariant: every buffered entry is well formed and
the sequence is pairwise disjoint in buffer order. -/
def buf_inv (L : List range_tombstone) : Prop :=
  (∀ b ∈ L, wfRT b = true) ∧ L.Pairwise disjR

/-- Two buffer-ordered disjoint entries never cover a common row. -/
theorem disj_no_common_row {x y : range_tombstone} (hd : disjR x y)
    (ck : List Int) : ¬(covers x ck = true ∧ covers y ck = true) := by
  intro hc
  obtain ⟨h1, h2⟩ := hc
  simp only [covers, Bool.and_eq_true, Bool.not_eq_true'] at h1 h2
  rcases row_bound_total ck x.end_bound with h | h
  · have hr : compareBW ck 0 y.start_bound.pref (weight y.start_bound.kind)
        = true := cmp_lt_of_lt_of_le h hd
    have h2' : compareBW ck 0 y.start_bound.pref (weight y.start_bound.kind)
        = false := h2.1
    rw [hr] at h2'
    simp at h2'
  · have h1' : compareBW x.end_bound.pref (weight x.end_bound.kind) ck 0
        = false := h1.2
    rw [h] at h1'
    simp at h1'

/-- C3: the buffered sequence of the accumulator always consists of pairwise
non-overlapping range tombstones ordered consistently by both start and end
bound, and every accumulator operation — in particular `apply` — preserves
this invariant. -/
theorem C3_buffer_invariant :
    (∀ (acc : range_tombstone_accumulator) (rt : range_tombstone),
      wfRT rt = true → buf_inv acc._range_tombstones →
      buf_inv (acc.apply rt)._range_tombstones) ∧
    (∀ (acc : range_tombstone_accumulator) (ck : List Int),
      buf_inv acc._range_tombstones →
      buf_inv (acc.tombstone_for_row ck).1._range_tombstones) ∧
    (∀ (acc : range_tombstone_accumulator) (t : tombstone),
      buf_inv acc._range_tombstones →
      buf_inv (acc.set_partition_tombstone t)._range_tombstones) ∧
    (∀ acc : range_tombstone_accumulator,
      buf_inv acc._range_tombstones → buf_inv acc.clear._range_tombstones) ∧
    (∀ L : List range_tombstone, buf_inv L →
      L.Pairwise (fun x y => ∀ ck : List Int,
        ¬(covers x ck = true ∧ covers y ck = true)) ∧
      L.Pairwise (fun x y => bv_lt y.start_bound x.start_bound = false) ∧
      L.Pairwise (fun x y => bv_lt y.end_bound x.end_bound = false)) := by
  refine ⟨?_, ?_, ?_, ?_, ?_⟩
  · intro acc rt hwrt hinv
    exact ⟨insert_wf acc._range_tombstones rt hinv.1 hwrt,
      insert_pw acc._range_tombstones rt hinv.1 hwrt hinv.2⟩
  · intro acc ck hinv
    constructor
    · intro b hb
      exact hinv.1 b (List.mem_of_mem_filter hb)
    · exact hinv.2.filter _
  · intro acc t hinv
    exact hinv
  · intro acc _
    exact ⟨by simp [range_tombstone_accumulator.clear], by
      simp [range_tombstone_accumulator.clear]⟩
  · intro L hinv
    refine ⟨?_, ?_, ?_⟩
    · exact hinv.2.imp (fun hd => disj_no_common_row hd)
    · refine List.Pairwise.imp_of_mem ?_ hinv.2
      intro a b ha _ hd
      exact bv_le_trans (wfRT_le (hinv.1 a ha)) hd
    · refine List.Pairwise.imp_of_mem ?_ hinv.2
      intro a b _ hb hd
      exact bv_le_trans hd (wfRT_le (hinv.1 b hb))

/-- Witness for C3 at a concrete accumulator state. -/
theorem C3_buffer_invariant_witness :
    buf_inv ((⟨⟨0, 0⟩, [⟨[1], .incl_start, [2], .incl_end, ⟨1, 0⟩⟩], ⟨0, 0⟩,
        false⟩ : range_tombstone_accumulator).apply
      ⟨[3], .incl_start, [4], .incl_end, ⟨2, 0⟩⟩)._range_tombstones :=
  C3_buffer_invariant.1
    ⟨⟨0, 0⟩, [⟨[1], .incl_start, [2], .incl_end, ⟨1, 0⟩⟩], ⟨0, 0⟩, false⟩
    ⟨[3], .incl_start, [4], .incl_end, ⟨2, 0⟩⟩
    (by decide)
    ⟨by intro b hb; simp at hb; subst hb; decide, by simp⟩

/-! ### Accumulator soundness (C1) -/

theorem covers_elim {rt : range_tombstone} {row : List Int}
    (h : covers rt row = true) :
    row_lt_bv row rt.start_bound = false ∧ bv_lt_row rt.end_bound row = false := by
  simp only [covers, Bool.and_eq_true, Bool.not_eq_true'] at h
  exact h

theorem covers_intro {rt : range_tombstone} {row : List Int}
    (h1 : row_lt_bv row rt.start_bound = false)
    (h2 : bv_lt_row rt.end_bound row = false) : covers rt row = true := by
  simp [covers, h1, h2]

/-- If a row is not before `y` and `x ≤ y`, the row is not before `x`. -/
theorem row_lt_bv_mono {row : List Int} {x y : bound_view}
    (h1 : row_lt_bv row y = false) (h2 : bv_lt y x = false) :
    row_lt_bv row x = false := by
  cases hb : row_lt_bv row x with
  | false => rfl
  | true =>
    have hy : row_lt_bv row y = true := cmp_lt_of_lt_of_le hb h2
    rw [hy] at h1
    simp at h1

/-- If a bound `x` is not after a row and `x ≤ y`, then `y` is not after the
row either. -/
theorem bv_lt_row_mono {row : List Int} {x y : bound_view}
    (h1 : bv_lt_row x row = false) (h2 : bv_lt y x = false) :
    bv_lt_row y row = false := by
  cases hb : bv_lt_row y row with
  | false => rfl
  | true =>
    have hx : bv_lt_row x row = true := cmp_lt_of_le_of_lt h2 hb
    rw [hx] at h1
    simp at h1

theorem row_lt_bv_congr {row : List Int} {x y : bound_view}
    (hp : x.pref = y.pref) (hw : weight x.kind = weight y.kind) :
    row_lt_bv row x = row_lt_bv row y := by
  rw [row_lt_bv, row_lt_bv, hp, hw]

theorem bv_lt_row_congr {row : List Int} {x y : bound_view}
    (hp : x.pref = y.pref) (hw : weight x.kind = weight y.kind) :
    bv_lt_row x row = bv_lt_row y row := by
  rw [bv_lt_row, bv_lt_row, hp, hw]

/-- A row covered by a same-start merge result is covered by both inputs, and
the merged tombstone is one of the two input tombstones. -/
theorem apply_fst_covers {a b : range_tombstone}
    (hp : a.start = b.start) (hw : weight a.start_kind = weight b.start_kind)
    {row : List Int} (hc : covers (a.apply b).1 row = true) :
    covers a row = true ∧ covers b row = true ∧
    ((a.apply b).1.tomb = a.tomb ∨ (a.apply b).1.tomb = b.tomb) := by
  obtain ⟨hc1, hc2⟩ := covers_elim hc
  rw [apply_fst_start_bound] at hc1
  have hc2' : bv_lt_row (minBound a.end_bound b.end_bound) row = false := by
    have : (a.apply b).1.end_bound = minBound a.end_bound b.end_bound :=
      apply_fst_end_bound a b
    rw [← this]
    exact hc2
  refine ⟨covers_intro hc1 (bv_lt_row_mono hc2' (minBound_le_left _ _)), ?_, ?_⟩
  · refine covers_intro ?_ (bv_lt_row_mono hc2' (minBound_le_right _ _))
    rw [← @row_lt_bv_congr row a.start_bound b.start_bound
      (by rw [range_tombstone.start_bound, range_tombstone.start_bound]; exact hp)
      (by rw [range_tombstone.start_bound, range_tombstone.start_bound]; exact hw)]
    exact hc1
  · rw [apply_fst]
    by_cases hwin : a.tomb.timestamp < b.tomb.timestamp
    · exact Or.inr (by simp [hwin])
    · exact Or.inl (by simp [hwin])

theorem minBound_ge_starts {a b : range_tombstone}
    (hwa : wfRT a = true) (hwb : wfRT b = true)
    (hp : a.start = b.start) (hw : weight a.start_kind = weight b.start_kind) :
    bv_lt (minBound a.end_bound b.end_bound) a.start_bound = false ∧
    bv_lt (minBound a.end_bound b.end_bound) b.start_bound = false := by
  have hps : a.start_bound.pref = b.start_bound.pref := hp
  have hws : weight a.start_bound.kind = weight b.start_bound.kind := hw
  have h1 : bv_lt (minBound a.end_bound b.end_bound) a.start_bound = false := by
    rcases minBound_or a.end_bound b.end_bound with hm | hm <;> rw [hm]
    · exact wfRT_le hwa
    · rw [bv_congr_right hps hws]
      exact wfRT_le hwb
  refine ⟨h1, ?_⟩
  rw [← bv_congr_right hps hws]
  exact h1

/-- A row covered by a returned remainder is covered by the losing input, and
the remainder carries that input's tombstone. -/
theorem apply_rem_covers {a b r : range_tombstone}
    (hwa : wfRT a = true) (hwb : wfRT b = true)
    (hp : a.start = b.start) (hw : weight a.start_kind = weight b.start_kind)
    (ho : (a.apply b).2 = some r) {row : List Int}
    (hc : covers r row = true) :
    (covers a row = true ∧ r.tomb = a.tomb) ∨
    (covers b row = true ∧ r.tomb = b.tomb) := by
  obtain ⟨hc1, hc2⟩ := covers_elim hc
  obtain ⟨hpr, hkr⟩ := apply_rem_start_pair ho
  obtain ⟨hga, hgb⟩ := minBound_ge_starts hwa hwb hp hw
  rw [apply_snd] at ho
  by_cases hcond : bv_lt (minBound a.end_bound b.end_bound)
      (if a.tomb.timestamp < b.tomb.timestamp then a.end_bound else b.end_bound)
      = true
  · rw [if_pos hcond] at ho
    have hrec := (Option.some.inj ho).symm
    by_cases hwin : a.tomb.timestamp < b.tomb.timestamp
    · refine Or.inl ⟨covers_intro ?_ ?_, ?_⟩
      · refine row_lt_bv_mono hc1 ?_
        rw [bv_congr_left hpr hkr]
        exact hga
      · have hre : r.end_bound = a.end_bound := by
          rw [hrec, range_tombstone.end_bound]
          simp [hwin]
        rw [← hre]
        exact hc2
      · rw [hrec]
        simp [hwin]
    · refine Or.inr ⟨covers_intro ?_ ?_, ?_⟩
      · refine row_lt_bv_mono hc1 ?_
        rw [bv_congr_left hpr hkr]
        exact hgb
      · have hre : r.end_bound = b.end_bound := by
          rw [hrec, range_tombstone.end_bound]
          simp [hwin]
        rw [← hre]
        exact hc2
      · rw [hrec]
        simp [hwin]
  · rw [if_neg hcond] at ho
    cases ho

theorem splitFront_covers {h rt : range_tombstone} {row : List Int}
    (c1 : bv_lt h.end_bound rt.start_bound = false)
    (hc : covers (splitFront h rt) row = true) : covers h row = true := by
  obtain ⟨h1, h2⟩ := covers_elim hc
  rw [bv_lt_row_congr (splitFront_end_pair h rt).1 (splitFront_end_pair h rt).2]
    at h2
  exact covers_intro h1 (bv_lt_row_mono h2 c1)

theorem splitBack_covers {h rt : range_tombstone} {row : List Int}
    (hle : bv_lt rt.start_bound h.start_bound = false)
    (hc : covers (splitBack h rt) row = true) : covers h row = true := by
  obtain ⟨h1, h2⟩ := covers_elim hc
  exact covers_intro (row_lt_bv_mono h1 hle) h2

/-- Soundness of the overlap-resolving insertion: every row covered by a
produced entry was covered by an input entry carrying the same tombstone. -/
theorem insert_sound (L : List range_tombstone) : ∀ (rt : range_tombstone),
    (∀ b ∈ L, wfRT b = true) → wfRT rt = true →
    ∀ c ∈ insertRT L rt, ∀ row : List Int, covers c row = true →
      (∃ b ∈ L, covers b row = true ∧ b.tomb = c.tomb) ∨
      (covers rt row = true ∧ rt.tomb = c.tomb) := by
  induction L with
  | nil =>
    intro rt _ _ c hc row hcov
    rw [insertRT_nil] at hc
    simp at hc
    subst hc
    exact Or.inr ⟨hcov, rfl⟩
  | cons h t ih =>
    intro rt hwL hwrt c hc row hcov
    have hwh : wfRT h = true := hwL h (by simp)
    have hwt : ∀ b ∈ t, wfRT b = true := fun b hb => hwL b (by simp [hb])
    cases c1 : bv_lt h.end_bound rt.start_bound with
    | true =>
      rw [insertRT_cons_before t c1] at hc
      rcases List.mem_cons.mp hc with rfl | hc'
      · exact Or.inl ⟨c, by simp, hcov, rfl⟩
      · rcases ih rt hwt hwrt c hc' row hcov with ⟨b, hb, hcb, htb⟩ | hr
        · exact Or.inl ⟨b, by simp [hb], hcb, htb⟩
        · exact Or.inr hr
    | false =>
      cases c2 : bv_lt rt.end_bound h.start_bound with
      | true =>
        rw [insertRT_cons_after t c1 c2] at hc
        rcases List.mem_cons.mp hc with rfl | hc'
        · exact Or.inr ⟨hcov, rfl⟩
        · exact Or.inl ⟨c, hc', hcov, rfl⟩
      | false =>
        cases c3 : bv_lt h.start_bound rt.start_bound with
        | true =>
          rw [insertRT_cons_split_h t c1 c2 c3] at hc
          rcases List.mem_cons.mp hc with rfl | hc'
          · exact Or.inl ⟨h, by simp, splitFront_covers c1 hcov, rfl⟩
          · rcases List.mem_cons.mp hc' with rfl | hc''
            · obtain ⟨hcsb, hcrt, htomb⟩ :=
                apply_fst_covers (a := splitBack h rt) (b := rt) rfl rfl hcov
              rcases htomb with ht | ht
              · exact Or.inl ⟨h, by simp,
                  splitBack_covers (bv_asymm c3) hcsb, ht.symm⟩
              · exact Or.inr ⟨hcrt, ht.symm⟩
            · rcases ho : ((splitBack h rt).apply rt).2 with _ | r <;>
                rw [ho] at hc'' <;> simp only [restOf] at hc''
              · exact Or.inl ⟨c, by simp [hc''], hcov, rfl⟩
              · rcases ih r hwt (apply_rem_wf ho) c hc'' row hcov with
                  ⟨b, hb, hcb, htb⟩ | ⟨hcr, htr⟩
                · exact Or.inl ⟨b, by simp [hb], hcb, htb⟩
                · rcases apply_rem_covers (splitBack_wf c1) hwrt rfl rfl ho hcr
                    with ⟨hsb, hts⟩ | ⟨hrt2, htr2⟩
                  · refine Or.inl ⟨h, by simp,
                      splitBack_covers (bv_asymm c3) hsb, ?_⟩
                    rw [← htr]
                    exact hts.symm
                  · refine Or.inr ⟨hrt2, ?_⟩
                    rw [← htr]
                    exact htr2.symm
        | false =>
          cases c4 : bv_lt rt.start_bound h.start_bound with
          | true =>
            rw [insertRT_cons_split_rt t c1 c2 c3 c4] at hc
            rcases List.mem_cons.mp hc with rfl | hc'
            · exact Or.inr ⟨splitFront_covers c2 hcov, rfl⟩
            · rcases List.mem_cons.mp hc' with rfl | hc''
              · obtain ⟨hch, hcsb, htomb⟩ :=
                  apply_fst_covers (a := h) (b := splitBack rt h) rfl rfl hcov
                rcases htomb with ht | ht
                · exact Or.inl ⟨h, by simp, hch, ht.symm⟩
                · exact Or.inr ⟨splitBack_covers c3 hcsb, ht.symm⟩
              · rcases ho : (h.apply (splitBack rt h)).2 with _ | r <;>
                  rw [ho] at hc'' <;> simp only [restOf] at hc''
                · exact Or.inl ⟨c, by simp [hc''], hcov, rfl⟩
                · rcases ih r hwt (apply_rem_wf ho) c hc'' row hcov with
                    ⟨b, hb, hcb, htb⟩ | ⟨hcr, htr⟩
                  · exact Or.inl ⟨b, by simp [hb], hcb, htb⟩
                  · rcases apply_rem_covers hwh (splitBack_wf c2) rfl rfl ho hcr
                      with ⟨hch, hth⟩ | ⟨hsb, hts⟩
                    · refine Or.inl ⟨h, by simp, hch, ?_⟩
                      rw [← htr]
                      exact hth.symm
                    · refine Or.inr ⟨splitBack_covers c3 hsb, ?_⟩
                      rw [← htr]
                      exact hts.symm
          | false =>
            obtain ⟨hp, hwgt⟩ := cmp_eq_of_incomp c3 c4
            rw [insertRT_cons_same t c1 c2 c3 c4] at hc
            rcases List.mem_cons.mp hc with rfl | hc'
            · obtain ⟨hch, hcrt, htomb⟩ := apply_fst_covers hp hwgt hcov
              rcases htomb with ht | ht
              · exact Or.inl ⟨h, by simp, hch, ht.symm⟩
              · exact Or.inr ⟨hcrt, ht.symm⟩
            · rcases ho : (h.apply rt).2 with _ | r <;>
                rw [ho] at hc' <;> simp only [restOf] at hc'
              · exact Or.inl ⟨c, by simp [hc'], hcov, rfl⟩
              · rcases ih r hwt (apply_rem_wf ho) c hc' row hcov with
                  ⟨b, hb, hcb, htb⟩ | ⟨hcr, htr⟩
                · exact Or.inl ⟨b, by simp [hb], hcb, htb⟩
                · rcases apply_rem_covers hwh hwrt hp hwgt ho hcr with
                    ⟨hch, hth⟩ | ⟨hcrt, htrt⟩
                  · refine Or.inl ⟨h, by simp, hch, ?_⟩
                    rw [← htr]
                    exact hth.symm
                  · refine Or.inr ⟨hcrt, ?_⟩
                    rw [← htr]
                    exact htrt.symm

/-- Every buffered entry's coverage and tombstone is justified by some
previously applied range tombstone. -/
def soundIn (applied L : List range_tombstone) : Prop :=
  ∀ b ∈ L, ∀ row : List Int, covers b row = true →
    ∃ a ∈ applied, covers a row = true ∧ a.tomb = b.tomb

theorem soundIn_mono {applied applied' L : List range_tombstone}
    (hsub : ∀ a ∈ applied, a ∈ applied') (h : soundIn applied L) :
    soundIn applied' L := by
  intro b hb row hc
  obtain ⟨a, ha, h1, h2⟩ := h b hb row hc
  exact ⟨a, hsub a ha, h1, h2⟩

/-- Invariant of a run: buffered entries stay well formed and sound with
respect to the applied tombstones, and the partition tombstone is unchanged. -/
theorem runAcc_inv (evs : List acc_event) :
    ∀ (acc : range_tombstone_accumulator) (applied0 : List range_tombstone),
    (∀ rt ∈ appliedOf evs, wfRT rt = true) →
    (∀ b ∈ acc._range_tombstones, wfRT b = true) →
    soundIn applied0 acc._range_tombstones →
    (∀ b ∈ (runAcc acc evs)._range_tombstones, wfRT b = true) ∧
    soundIn (applied0 ++ appliedOf evs) (runAcc acc evs)._range_tombstones ∧
    (runAcc acc evs)._partition_tombstone = acc._partition_tombstone := by
  induction evs with
  | nil =>
    intro acc applied0 _ hwb hs
    refine ⟨hwb, ?_, rfl⟩
    rw [appliedOf, List.filterMap_nil, List.append_nil]
    exact hs
  | cons e es ih =>
    intro acc applied0 hwf hwb hs
    cases e with
    | ev_apply rt =>
      have hwrt : wfRT rt = true := hwf rt (by simp [appliedOf])
      have hwf' : ∀ a ∈ appliedOf es, wfRT a = true := by
        intro a ha
        exact hwf a (by simp [appliedOf] at ha ⊢; exact Or.inr ha)
      have hwb' : ∀ b ∈ (acc.apply rt)._range_tombstones, wfRT b = true :=
        insert_wf acc._range_tombstones rt hwb hwrt
      have hs' : soundIn (applied0 ++ [rt]) (acc.apply rt)._range_tombstones := by
        intro c hc row hcov
        rcases insert_sound acc._range_tombstones rt hwb hwrt c hc row hcov with
          ⟨b, hb, hcb, htb⟩ | ⟨hcrt, htrt⟩
        · obtain ⟨a, ha, hca, hta⟩ := hs b hb row hcb
          exact ⟨a, List.mem_append_left _ ha, hca, hta.trans htb⟩
        · exact ⟨rt, List.mem_append_right _ (by simp), hcrt, htrt⟩
      obtain ⟨h1, h2, h3⟩ := ih (acc.apply rt) (applied0 ++ [rt]) hwf' hwb' hs'
      refine ⟨h1, ?_, h3⟩
      have heq : applied0 ++ appliedOf (acc_event.ev_apply rt :: es)
          = (applied0 ++ [rt]) ++ appliedOf es := by
        simp [appliedOf]
      rw [heq]
      exact h2
    | ev_query ck =>
      have hwf' : ∀ a ∈ appliedOf es, wfRT a = true := by
        intro a ha
        exact hwf a (by simp [appliedOf] at ha ⊢; exact ha)
      have hwb' : ∀ b ∈ ((acc.tombstone_for_row ck).1)._range_tombstones,
          wfRT b = true := by
        intro b hb
        exact hwb b (List.mem_of_mem_filter hb)
      have hs' : soundIn applied0 ((acc.tombstone_for_row ck).1)._range_tombstones := by
        intro b hb row hcov
        exact hs b (List.mem_of_mem_filter hb) row hcov
      obtain ⟨h1, h2, h3⟩ := ih ((acc.tombstone_for_row ck).1) applied0 hwf' hwb' hs'
      refine ⟨h1, ?_, h3⟩
      have heq : applied0 ++ appliedOf (acc_event.ev_query ck :: es)
          = applied0 ++ appliedOf es := by
        simp [appliedOf]
      rw [heq]
      exact h2

/-- The accumulator at the start of a partition scan: freshly constructed,
with the partition tombstone set. -/
def initAcc (pt : tombstone) : range_tombstone_accumulator :=
  (range_tombstone_accumulator.fresh false).set_partition_tombstone pt

/-- Run a sequence of accumulator inputs and then query one row. -/
def runQuery (pt : tombstone) (evs : List acc_event) (ck : List Int) :
    range_tombstone_accumulator × tombstone :=
  (runAcc (initAcc pt) evs).tombstone_for_row ck

/-- Counterexample to C1: after applying `[1,3] ↦ (ts 1)` and then the
overlapping `[2,4] ↦ (ts 2)` (positions strictly increasing), querying row
`[4]` returns the partition tombstone `(ts 0)` even though the applied range
tombstone `[2,4]` covers `[4]` with strictly higher priority: the spec's merge
primitive truncates the winner to the shared end and drops the winner's
overhang, so the applied coverage beyond `[3]` is lost. -/
theorem C1_counterexample :
    wfEvents [acc_event.ev_apply ⟨[1], .incl_start, [3], .incl_end, ⟨1, 0⟩⟩,
      acc_event.ev_apply ⟨[2], .incl_start, [4], .incl_end, ⟨2, 0⟩⟩] ∧
    monotoneEvents [acc_event.ev_apply ⟨[1], .incl_start, [3], .incl_end, ⟨1, 0⟩⟩,
      acc_event.ev_apply ⟨[2], .incl_start, [4], .incl_end, ⟨2, 0⟩⟩,
      acc_event.ev_query [4]] ∧
    covers ⟨[2], .incl_start, [4], .incl_end, ⟨2, 0⟩⟩ [4] = true ∧
    (runQuery ⟨0, 0⟩
      [acc_event.ev_apply ⟨[1], .incl_start, [3], .incl_end, ⟨1, 0⟩⟩,
       acc_event.ev_apply ⟨[2], .incl_start, [4], .incl_end, ⟨2, 0⟩⟩] [4]).2
      = ⟨0, 0⟩ ∧
    ((0 : Int) < 2 ∧ (⟨0, 0⟩ : tombstone) ≠ ⟨2, 0⟩) := by
  refine ⟨?_, ?_, by decide, by decide, by decide, by decide⟩
  · intro rt hrt
    simp [appliedOf] at hrt
    rcases hrt with rfl | rfl <;> decide
  · rw [monotoneEvents]
    refine List.Chain'.cons (by decide) (List.Chain'.cons (by decide) ?_)
    exact List.chain'_singleton _

/-- C1 (amended): for a sequence of applies and row queries in increasing
position order under a fixed schema, `tombstone_for_row(ck)` first drops
exactly the buffered entries whose end bound is strictly before `ck`, and
returns either the partition tombstone or the tombstone of some previously
applied range tombstone whose range contains `ck`, never of lower priority
than the partition tombstone; the returned tombstone need not be the
maximum-priority applied one, since the merge primitive can discard the
higher-priority overhang of an overlap (see the counterexample). -/
theorem C1_amended (pt : tombstone) (evs : List acc_event) (ck : List Int)
    (hwf : wfEvents evs)
    (_hmono : monotoneEvents (evs ++ [acc_event.ev_query ck])) :
    ((runQuery pt evs ck).2 = pt ∨
      ∃ rt ∈ appliedOf evs, covers rt ck = true
        ∧ rt.tomb = (runQuery pt evs ck).2) ∧
    ¬((runQuery pt evs ck).2.timestamp < pt.timestamp) ∧
    (runQuery pt evs ck).1._range_tombstones
      = (runAcc (initAcc pt) evs)._range_tombstones.filter
          (fun rt => !(bv_lt_row rt.end_bound ck)) := by
  have hbuf0 : (initAcc pt)._range_tombstones = [] := rfl
  have hpt0 : (initAcc pt)._partition_tombstone = pt := rfl
  obtain ⟨hw, hs, hp⟩ := runAcc_inv evs (initAcc pt) [] hwf
    (by rw [hbuf0]; intro b hb; cases hb)
    (by rw [hbuf0]; intro b hb; cases hb)
  rw [hpt0] at hp
  have hq2 : (runQuery pt evs ck).2 =
      (match ((runAcc (initAcc pt) evs)._range_tombstones.filter
          (fun rt => !(bv_lt_row rt.end_bound ck))).find?
          (fun rt => covers rt ck) with
        | some rt => tombMax (runAcc (initAcc pt) evs)._partition_tombstone rt.tomb
        | none => (runAcc (initAcc pt) evs)._partition_tombstone) := rfl
  refine ⟨?_, ?_, rfl⟩ <;>
    rcases hf : ((runAcc (initAcc pt) evs)._range_tombstones.filter
        (fun rt => !(bv_lt_row rt.end_bound ck))).find?
        (fun rt => covers rt ck) with _ | b <;>
    rw [hq2, hf] <;> simp only []
  · exact Or.inl hp
  · have hbmem : b ∈ (runAcc (initAcc pt) evs)._range_tombstones :=
      List.mem_of_mem_filter (List.mem_of_find?_eq_some hf)
    have hbcov : covers b ck = true := by
      have hx := List.find?_some hf
      simpa using hx
    obtain ⟨a, ha, hca, hta⟩ := hs b hbmem ck hbcov
    rw [List.nil_append] at ha
    rw [hp, tombMax]
    by_cases hts : pt.timestamp < b.tomb.timestamp
    · rw [if_pos hts]
      exact Or.inr ⟨a, ha, hca, hta⟩
    · rw [if_neg hts]
      exact Or.inl rfl
  · rw [hp]
    exact lt_irrefl pt.timestamp
  · rw [hp, tombMax]
    by_cases hts : pt.timestamp < b.tomb.timestamp
    · rw [if_pos hts]
      intro hcon
      exact absurd (lt_trans hcon hts) (lt_irrefl _)
    · rw [if_neg hts]
      exact lt_irrefl pt.timestamp

/-- Witness for C1 (amended) at a concrete one-apply trace. -/
theorem C1_amended_witness :
    ((runQuery ⟨5, 0⟩
        [acc_event.ev_apply ⟨[1], .incl_start, [2], .incl_end, ⟨7, 0⟩⟩] [1]).2
        = ⟨5, 0⟩ ∨
      ∃ rt ∈ appliedOf
          [acc_event.ev_apply ⟨[1], .incl_start, [2], .incl_end, ⟨7, 0⟩⟩],
        covers rt [1] = true ∧ rt.tomb = (runQuery ⟨5, 0⟩
          [acc_event.ev_apply ⟨[1], .incl_start, [2], .incl_end, ⟨7, 0⟩⟩] [1]).2) ∧
    ¬((runQuery ⟨5, 0⟩
        [acc_event.ev_apply ⟨[1], .incl_start, [2], .incl_end, ⟨7, 0⟩⟩] [1]).2.timestamp
        < (⟨5, 0⟩ : tombstone).timestamp) ∧
    (runQuery ⟨5, 0⟩
        [acc_event.ev_apply ⟨[1], .incl_start, [2], .incl_end, ⟨7, 0⟩⟩] [1]).1._range_tombstones
      = (runAcc (initAcc ⟨5, 0⟩)
          [acc_event.ev_apply ⟨[1], .incl_start, [2], .incl_end, ⟨7, 0⟩⟩])._range_tombstones.filter
          (fun rt => !(bv_lt_row rt.end_bound [1])) :=
  C1_amended ⟨5, 0⟩
    [acc_event.ev_apply ⟨[1], .incl_start, [2], .incl_end, ⟨7, 0⟩⟩] [1]
    (by intro rt hrt; simp [appliedOf] at hrt; subst hrt; decide)
    (by rw [monotoneEvents]
        exact List.Chain'.cons (by decide) (List.chain'_singleton _))
